import Mathlib

/-!
Verification of the nexon inference server core against its specification.

The definitions below are a shallow embedding of the Python sources under
`server/`:

* `server/shared/orchestrator.py` — domain errors, the ONNX-to-NumPy dtype
  table, `_shape_compatible`, `_numpy_from_bytes`,
  `InferenceOrchestrator._resolve_deployed_file_id` and the validation part
  of `InferenceOrchestrator.run_from_bytes`;
* `server/rest/app/services/inference.py` and
  `server/grpc_service/server.py` — the translation of domain errors to
  HTTP status codes and gRPC status codes;
* `server/shared/model_cache.py` — `ModelCache` (`get_session`,
  `_get_if_fresh`, `_evict_if_needed`, `invalidate`, `clear`), both as a
  sequential state machine and as a small-step interleaving model of the
  asyncio execution.

Machine integers are modelled as `Nat`/`Int`; byte buffers as `List UInt8`;
fallible code returns `Except`.
-/

namespace Nexon

/-! ## Domain errors (server/shared/orchestrator.py, top of file)

`ModelNotFoundError`, `ModelNotDeployedError`, `InvalidInputError`; the
catch-all `Exception` branch of the transports is the `internal` kind. -/

inductive DomainError where
  | modelNotFound (msg : String)
  | modelNotDeployed (msg : String)
  | invalidInput (msg : String)
  | internal (msg : String)
deriving DecidableEq, Repr

/-- Does the computation fail with `InvalidInputError`? -/
def isInvalidInput {α : Type} : Except DomainError α → Bool
  | .error (.invalidInput _) => true
  | _ => false

/-- Does the computation succeed? -/
def isOkE {α : Type} : Except DomainError α → Bool
  | .ok _ => true
  | _ => false

/-! ## NumPy dtypes and the ONNX type table (`ONNX_TO_NP`) -/

/-- The NumPy dtypes the server supports for model input[0]
(little-endian f4/f8/i4/i8 and bool). -/
inductive NPD where
  | f32
  | f64
  | i32
  | i64
  | boolT
deriving DecidableEq, Repr

/-- `np.dtype(...).itemsize` for each supported dtype. -/
def NPD.itemsize : NPD → Nat
  | .f32 => 4
  | .f64 => 8
  | .i32 => 4
  | .i64 => 8
  | .boolT => 1

/-- `ONNX_TO_NP` from server/shared/orchestrator.py: ONNX type string to
NumPy dtype; unknown strings are absent (`.get` returns `None`). -/
def onnxToNp : String → Option NPD
  | "tensor(float)" => some .f32
  | "tensor(float32)" => some .f32
  | "tensor(double)" => some .f64
  | "tensor(float64)" => some .f64
  | "tensor(int64)" => some .i64
  | "tensor(int32)" => some .i32
  | "tensor(bool)" => some .boolT
  | "tensor(boolean)" => some .boolT
  | _ => none

/-! ## Binary tensor decoding (`_numpy_from_bytes`) -/

/-- A decoded NumPy array: shape plus raw little-endian row-major bytes.
`np.ascontiguousarray(...).reshape(tuple(dims))` yields exactly this view
of the validated buffer. -/
structure NDArray where
  shape : List Int
  data : List UInt8
  dtype : NPD
deriving DecidableEq, Repr

/-- `elem_size = 1 if dtype == np.dtype(np.bool_) else int(dtype.itemsize)` -/
def elemSize (dtype : NPD) : Int :=
  if dtype = NPD.boolT then 1 else (dtype.itemsize : Int)

/-- The `InvalidInputError` message raised on a byte-count mismatch:
`f"tensor_content size {len(buf)} != prod(dims) {elems} * elem_size {elem_size}"`. -/
def sizeMismatchMsg (lenBuf : Nat) (elems elemSz : Int) : String :=
  s!"tensor_content size {lenBuf} != prod(dims) {elems} * elem_size {elemSz}"

/-- `_numpy_from_bytes(buf, dims, dtype)` from server/shared/orchestrator.py:
reject empty `dims`, validate `len(buf) == prod(dims) * elem_size`, then
rebuild a C-contiguous array of shape `dims` from the bytes. -/
def numpyFromBytes (buf : List UInt8) (dims : List Int) (dtype : NPD) :
    Except DomainError NDArray :=
  if dims = [] then
    .error (.invalidInput "input.dims must be provided and non-empty.")
  else if (buf.length : Int) ≠ dims.foldl (· * ·) 1 * elemSize dtype then
    .error (.invalidInput
      (sizeMismatchMsg buf.length (dims.foldl (· * ·) 1) (elemSize dtype)))
  else
    .ok ⟨dims, buf, dtype⟩

/-! ## Shape compatibility (`_shape_compatible`) -/

/-- One dimension of the model's declared input shape, as reported by
ONNX Runtime: a concrete integer, `None`, or a symbolic string name. -/
inductive EDim where
  | int (n : Int)
  | noneD
  | sym (s : String)
deriving DecidableEq, Repr

/-- One iteration of the loop in `_shape_compatible`:
`e in (None, -1, "None")` or `isinstance(e, str)` are wildcards, otherwise
`int(e) == int(a)` must hold. -/
def edimMatches (e : EDim) (a : Int) : Bool :=
  match e with
  | .noneD => true
  | .sym _ => true
  | .int n => n = -1 ∨ n = a

/-- `_shape_compatible(expected, actual)` from server/shared/orchestrator.py. -/
def shapeCompatible (expected : List EDim) (actual : List Int) : Bool :=
  expected.length = actual.length &&
    (expected.zip actual).all fun p => edimMatches p.1 p.2

/-- An expected dimension the code treats as a wildcard: `None`, `-1`
or any symbolic string. -/
def EDim.isWildcard : EDim → Bool
  | .noneD => true
  | .sym _ => true
  | .int n => n = -1

/-! ## Metadata resolver (`InferenceOrchestrator._resolve_deployed_file_id`) -/

/-- A document of the `models` collection, restricted to the fields the
resolver reads. `fileId` stands for the GridFS ObjectId. -/
structure ModelDoc where
  name : String
  status : String
  fileId : Nat
deriving DecidableEq, Repr

/-- `_resolve_deployed_file_id(model_name)`: fetch all documents whose
`name` matches (in storage order), fail `ModelNotFoundError` if there are
none, return the `file_id` of the first with `status == "Deployed"`, else
fail `ModelNotDeployedError`. -/
def resolveDeployedFileId (modelName : String) (store : List ModelDoc) :
    Except DomainError Nat :=
  let docs := store.filter fun d => d.name = modelName
  if docs.isEmpty then
    .error (.modelNotFound s!"Model {modelName} does not exist.")
  else
    match docs.find? (fun d => d.status = "Deployed") with
    | some d => .ok d.fileId
    | none => .error (.modelNotDeployed s!"Model {modelName} has no deployed version.")

/-! ## Transport error translation -/

/-- The gRPC status codes used by `InferenceService.Predict`. -/
inductive GrpcCode where
  | ok
  | notFound
  | failedPrecondition
  | invalidArgument
  | internal
deriving DecidableEq, Repr

/-- The `except` chain of `infer` in server/rest/app/services/inference.py:
`ModelNotFoundError` → 404, `ModelNotDeployedError` → 400,
`InvalidInputError` → 400, any other `Exception` → 500. -/
def restStatusOf : DomainError → Nat
  | .modelNotFound _ => 404
  | .modelNotDeployed _ => 400
  | .invalidInput _ => 400
  | .internal _ => 500

/-- The `except` chain around `run_from_bytes` in
server/grpc_service/server.py (`InferenceService.Predict`):
`ModelNotFoundError` → NOT_FOUND, `ModelNotDeployedError` →
FAILED_PRECONDITION, `InvalidInputError` → INVALID_ARGUMENT, any other
`Exception` → INTERNAL. -/
def grpcStatusOf : DomainError → GrpcCode
  | .modelNotFound _ => .notFound
  | .modelNotDeployed _ => .failedPrecondition
  | .invalidInput _ => .invalidArgument
  | .internal _ => .internal

/-! ## Request dtype tag

The orchestrator revision that accepts `request_dtype` is not in the tree;
`server/grpc_service/server.py` imports `PROTO_TO_NP`,
`DT_UNSPECIFIED_SENTINEL` and `DT_UNSUPPORTED_SENTINEL` from it and
`server/rest/app/services/inference.py` passes `request_dtype_str`.
The tag semantics is therefore modelled from the spec. -/

/-- Modelled from the spec: the optional request dtype tag
(`declaredType`), which "may be `unspecified`, `string-unsupported`, or one
of the supported tags" (spec section 3, RequestTensor). The orchestrator
code implementing it is missing from the source tree. -/
inductive DTag where
  | unspecified
  | stringUnsupported
  | tagged (t : NPD)
deriving DecidableEq, Repr

/-- Modelled from the spec: orchestrator algorithm step 6 — "If the caller
supplied an explicit dtype tag and it does not equal `inputElementType`,
fail `InvalidInput` (dtype mismatch); the dtype tag `string-unsupported`
always fails here; the dtype tag `unspecified` means derive from model."
The implementing code is missing from the source tree. -/
def effectiveInputDtype (tag : DTag) (modelType : NPD) : Except DomainError NPD :=
  match tag with
  | .unspecified => .ok modelType
  | .stringUnsupported =>
      .error (.invalidInput "DT_STRING is not supported over raw tensor bytes.")
  | .tagged t =>
      if t = modelType then .ok t
      else .error (.invalidInput "dtype mismatch")

/-- The dtype tag is optional on both transports; an absent tag derives the
element type from the model (spec section 4.5 step 6). -/
def effectiveInputDtypeOpt (tag : Option DTag) (modelType : NPD) :
    Except DomainError NPD :=
  match tag with
  | none => .ok modelType
  | some tg => effectiveInputDtype tg modelType

/-- The protobuf `DataType` enum
(`UNSPECIFIED / FLOAT32 / FLOAT64 / INT32 / INT64 / BOOL / STRING`). -/
inductive ProtoDataType where
  | unspecified
  | float32
  | float64
  | int32
  | int64
  | boolT
  | stringT
deriving DecidableEq, Repr

/-- `PROTO_TO_NP.get(request_tensor.data_type, DT_UNSUPPORTED_SENTINEL)`
as used in server/grpc_service/server.py, with the map contents modelled
from the spec (map numeric enum values to dtypes, `UNSPECIFIED` to the
derive-from-model sentinel, anything else — in particular `STRING` — to
the unsupported sentinel). -/
def protoToTag : ProtoDataType → DTag
  | .unspecified => .unspecified
  | .float32 => .tagged .f32
  | .float64 => .tagged .f64
  | .int32 => .tagged .i32
  | .int64 => .tagged .i64
  | .boolT => .tagged .boolT
  | .stringT => .stringUnsupported

/-! ## The byte-path orchestrator pipeline (`run_from_bytes`, validation part)

A loaded ONNX session is opaque; what `run_from_bytes` reads from it is
input[0]'s name, type string and declared shape (`in_meta`). The model
execution itself (`session.run`) is external; the embedding covers the
pipeline up to and including the shape check, returning the validated
array that would be fed to the session. -/

/-- The part of a loaded session's metadata read by the orchestrator:
`in_meta.name`, `in_meta.type`, `in_meta.shape`.  `inputShape = none`
models `in_meta.shape` being `None`. -/
structure ModelMeta where
  inputName : String
  inputType : String
  inputShape : Option (List EDim)
deriving DecidableEq, Repr

/-- The Python truthiness test `if exp_shape and not _shape_compatible(...)`:
the shape check is skipped when `in_meta.shape` is `None` or the empty
list. -/
def shapeGuardFails (expShape : Option (List EDim)) (actual : List Int) : Bool :=
  match expShape with
  | none => false
  | some l => l ≠ [] && ¬ shapeCompatible l actual

/-- The validation pipeline of `run_from_bytes` after session load
(server/shared/orchestrator.py): dtype table lookup, optional input-name
check, `_numpy_from_bytes`, shape check.  Returns the array that is fed to
`session.run`. -/
def runFromBytesCore (meta : ModelMeta) (dims : List Int) (raw : List UInt8)
    (providedName : String) : Except DomainError NDArray :=
  match onnxToNp meta.inputType with
  | none => .error (.invalidInput s!"Unsupported ONNX input dtype: {meta.inputType}")
  | some npDtype =>
    if providedName ≠ "" ∧ providedName ≠ meta.inputName then
      .error (.invalidInput s!"input.name {providedName} does not match model input[0] {meta.inputName}.")
    else
      match numpyFromBytes raw dims npDtype with
      | .error e => .error e
      | .ok arr =>
        if shapeGuardFails meta.inputShape arr.shape then
          .error (.invalidInput s!"Input shape mismatch.")
        else
          .ok arr

/-! ## Session cache, sequential model (server/shared/model_cache.py)

`ModelCache._cache` is a Python dict keyed by ObjectId, holding triples
`(session, loaded_at, last_used)`.  Python dicts iterate in insertion
order and keep an updated key at its original position, so the cache is
modelled as an insertion-ordered association list with at most one binding
per key.  Sessions are identified by the number of loads performed so far
(each `ort.InferenceSession(...)` construction yields a fresh handle).
Timestamps are naturals; `now - loaded_at > ttl` matches the Python float
comparison because a negative difference truncates to `0`, which is never
`> ttl`. -/

/-- One value of `ModelCache._cache`: `(session, loaded_at, last_used)`. -/
structure CEntry where
  sess : Nat
  loadedAt : Nat
  lastUsed : Nat
deriving DecidableEq, Repr

/-- The cache dict, in insertion order. -/
abbrev SeqCache := List (Nat × CEntry)

/-- `self._cache.get(oid)`. -/
def lookupC (c : SeqCache) (k : Nat) : Option CEntry :=
  (c.find? fun p => p.1 = k).map fun p => p.2

/-- `self._cache[oid] = entry`: update in place if the key is bound
(Python dicts keep the position), append otherwise. -/
def setC : SeqCache → Nat → CEntry → SeqCache
  | [], k, e => [(k, e)]
  | (k', e') :: rest, k, e =>
      if k' = k then (k, e) :: rest else (k', e') :: setC rest k e

/-- `self._cache.pop(oid, None)`. -/
def removeC (c : SeqCache) (k : Nat) : SeqCache :=
  c.filter fun p => p.1 ≠ k

/-- The in-process state the cache operations act on: the dict plus the
number of GridFS reads / session constructions performed so far. -/
structure CacheState where
  cache : SeqCache
  loads : Nat
deriving DecidableEq, Repr

/-- `ModelCache._get_if_fresh(oid, now)`: return the cached session if
present and unexpired, touching `last_used`; purge an entry whose age
exceeds the TTL (`0` disables) and report a miss. -/
def getIfFresh (ttl : Nat) (now : Nat) (c : SeqCache) (k : Nat) :
    Option Nat × SeqCache :=
  match lookupC c k with
  | none => (none, c)
  | some e =>
    if 0 < ttl ∧ ttl < now - e.loadedAt then
      (none, removeC c k)
    else
      (some e.sess, setC c k { e with lastUsed := now })

/-- One step of the scan in `_evict_if_needed`: keep the current best
unless the next entry has a strictly smaller `last_used`. -/
def lruMin (best : Option (Nat × CEntry)) (p : Nat × CEntry) :
    Option (Nat × CEntry) :=
  match best with
  | none => some p
  | some q => if p.2.lastUsed < q.2.lastUsed then some p else some q

/-- The scan in `_evict_if_needed` that finds the entry with the oldest
`last_used`: strict `<` against the best so far, hence the first entry
attaining the minimum wins. -/
def findLRU (c : SeqCache) : Option Nat :=
  (c.foldl lruMin none).map fun p => p.1

/-- The `while len(self._cache) > self._max` loop of `_evict_if_needed`,
with fuel; each iteration removes the first least-recently-used entry. -/
def evictGo (maxE : Int) : Nat → SeqCache → SeqCache
  | 0, c => c
  | fuel + 1, c =>
    if maxE < (c.length : Int) then
      match findLRU c with
      | some k => evictGo maxE fuel (removeC c k)
      | none => c
    else c

/-- `ModelCache._evict_if_needed`: no-op when `self._max <= 0`, else evict
least-recently-used entries until the size is at most `self._max`. -/
def evictIfNeeded (maxE : Int) (c : SeqCache) : SeqCache :=
  if maxE ≤ 0 then c else evictGo maxE c.length c

/-- `ModelCache.get_session(file_id)` in the absence of concurrency: check
the cache, re-check under the per-key lock, on a confirmed miss read the
blob, construct a session, insert `(session, now, now)` and evict.  The
returned Bool records whether a GridFS read / session construction
happened. -/
def getSession (maxE : Int) (ttl : Nat) (now : Nat) (st : CacheState) (k : Nat) :
    (Nat × Bool) × CacheState :=
  match getIfFresh ttl now st.cache k with
  | (some s, c1) => ((s, false), { st with cache := c1 })
  | (none, c1) =>
    match getIfFresh ttl now c1 k with
    | (some s, c2) => ((s, false), { st with cache := c2 })
    | (none, c2) =>
      let sess := st.loads
      let c3 := setC c2 k ⟨sess, now, now⟩
      ((sess, true), { cache := evictIfNeeded maxE c3, loads := st.loads + 1 })

/-- `ModelCache.invalidate(file_id)`. -/
def invalidateC (c : SeqCache) (k : Nat) : SeqCache := removeC c k

/-- `ModelCache.clear()`. -/
def clearC : SeqCache := []

/-- Loading a sequence of `(key, time)` pairs, as in the LRU scenario. -/
def loadSeq (maxE : Int) (ttl : Nat) : List (Nat × Nat) → CacheState → CacheState
  | [], st => st
  | (k, t) :: rest, st => loadSeq maxE ttl rest (getSession maxE ttl t st k).2

/-! ## Session cache, interleaving model

A small-step model of `n` asyncio tasks concurrently executing
`ModelCache.get_session` on one key, for the single-flight and timestamp
claims.  The atomic slices are taken from the code's suspension points:

* the global mutex is only ever held around synchronous dict operations,
  so acquiring it never suspends and a whole `_get_if_fresh` call — and in
  fact the stretch from `now = time.time()` through the first cache check
  up to the per-key lock attempt — runs without yielding to the loop;
* a free `asyncio.Lock` is acquired without suspending; a held one
  enqueues the caller FIFO and is handed to the head waiter on release;
* the GridFS read and session construction run while the per-key lock is
  held, and are the only steps that touch the loaded-session counters.

With a single key, `_evict_if_needed` never removes anything: either
`self._max <= 0` disables eviction, or the size `1` never exceeds
`self._max >= 1`; the model therefore omits eviction.  The scheduler
(the list of `(task, clock advance)` choices) is adversarial; the clock
is monotone, matching `time.time()`. -/

/-- The control state of one task running `get_session`.  The `Nat`
argument of `waiting`, `woken` and `loading` is the `now` the task
captured at the top of `get_session`. -/
inductive TaskSt where
  | ready
  | waiting (now : Nat)
  | woken (now : Nat)
  | loading (now : Nat)
  | finished (sess : Nat)
deriving DecidableEq, Repr

/-- `true` exactly on `finished`. -/
def TaskSt.isFinished : TaskSt → Bool
  | .finished _ => true
  | _ => false

/-- The system state: the (single-key) cache slot, the per-key lock and
its FIFO queue, each task's control state, the GridFS read and session
construction counters, and the clock. -/
structure MState (n : Nat) where
  cache : Option CEntry
  holder : Option (Fin n)
  queue : List (Fin n)
  tasks : Fin n → TaskSt
  reads : Nat
  constructs : Nat
  clock : Nat

/-- `async with lk`: take the lock if free (the task will re-check next),
otherwise join the FIFO queue. -/
def tryLock {n : Nat} (s : MState n) (i : Fin n) (now : Nat) : MState n :=
  match s.holder with
  | none => { s with holder := some i, tasks := Function.update s.tasks i (.woken now) }
  | some _ =>
      { s with queue := s.queue ++ [i],
               tasks := Function.update s.tasks i (.waiting now) }

/-- Releasing the per-key lock: hand it to the head waiter (who will
re-check when next scheduled), or free it. -/
def release {n : Nat} (s : MState n) : MState n :=
  match s.queue with
  | [] => { s with holder := none }
  | j :: rest =>
      { s with holder := some j, queue := rest,
               tasks := Function.update s.tasks j
                 (match s.tasks j with
                  | .waiting w => .woken w
                  | t => t) }

/-- One atomic slice of task `i`.  `ready`: capture `now`, run the first
`_get_if_fresh` (hit: touch and return; expired: purge; miss: attempt the
per-key lock).  `woken`: re-check under the lock.  `loading`: read the
blob, construct the session, insert `(session, now, now)` and release.
`waiting`/`finished` tasks have nothing to run. -/
def stepTask {n : Nat} (ttl : Nat) (i : Fin n) (s : MState n) : MState n :=
  match s.tasks i with
  | .ready =>
    let now := s.clock
    match s.cache with
    | some e =>
      if 0 < ttl ∧ ttl < now - e.loadedAt then
        tryLock { s with cache := none } i now
      else
        { s with cache := some { e with lastUsed := now },
                 tasks := Function.update s.tasks i (.finished e.sess) }
    | none => tryLock s i now
  | .woken now =>
    match s.cache with
    | some e =>
      if 0 < ttl ∧ ttl < now - e.loadedAt then
        { s with cache := none, tasks := Function.update s.tasks i (.loading now) }
      else
        release { s with cache := some { e with lastUsed := now },
                         tasks := Function.update s.tasks i (.finished e.sess) }
    | none => { s with tasks := Function.update s.tasks i (.loading now) }
  | .loading now =>
    release { s with cache := some ⟨s.constructs, now, now⟩,
                     reads := s.reads + 1,
                     constructs := s.constructs + 1,
                     tasks := Function.update s.tasks i (.finished s.constructs) }
  | .waiting _ => s
  | .finished _ => s

/-- One scheduler choice: advance the clock by `c.2`, then run one atomic
slice of task `c.1`. -/
def mstep {n : Nat} (ttl : Nat) (s : MState n) (c : Fin n × Nat) : MState n :=
  stepTask ttl c.1 { s with clock := s.clock + c.2 }

/-- Run a whole schedule. -/
def mrun {n : Nat} (ttl : Nat) (sched : List (Fin n × Nat)) (s : MState n) : MState n :=
  sched.foldl (mstep ttl) s

/-- The initial state: empty cache, free lock, all tasks about to call
`get_session`. -/
def minit (n : Nat) : MState n :=
  ⟨none, none, [], fun _ => .ready, 0, 0, 0⟩

/-! ## Helper lemmas -/

theorem numpyFromBytes_ok {buf : List UInt8} {dims : List Int} {d : NPD}
    {a : NDArray} (h : numpyFromBytes buf dims d = .ok a) : a = ⟨dims, buf, d⟩ := by
  unfold numpyFromBytes at h
  split at h
  · exact absurd h (by simp)
  · split at h
    · exact absurd h (by simp)
    · exact (Except.ok.inj h).symm

theorem numpyFromBytes_error_invalid {buf : List UInt8} {dims : List Int}
    {d : NPD} {e : DomainError} (h : numpyFromBytes buf dims d = .error e) :
    ∃ m, e = .invalidInput m := by
  unfold numpyFromBytes at h
  split at h
  · exact ⟨_, (Except.error.inj h).symm⟩
  · split at h
    · exact ⟨_, (Except.error.inj h).symm⟩
    · exact absurd h (by simp)

theorem shapeCompatible_iff_forall₂ (expected : List EDim) (actual : List Int) :
    shapeCompatible expected actual = true ↔
      List.Forall₂ (fun e a => edimMatches e a = true) expected actual := by
  rw [List.forall₂_iff_zip]
  simp only [shapeCompatible, Bool.and_eq_true, decide_eq_true_eq, List.all_eq_true]
  constructor
  · rintro ⟨hl, hall⟩
    exact ⟨hl, fun hm => hall _ hm⟩
  · rintro ⟨hl, hall⟩
    exact ⟨hl, fun p hm => hall hm⟩

theorem shapeCompatible_length {expected : List EDim} {actual : List Int}
    (h : shapeCompatible expected actual = true) :
    expected.length = actual.length :=
  ((shapeCompatible_iff_forall₂ _ _).mp h).length_eq

theorem find?_of_first {α : Type} (p : α → Bool) :
    ∀ (l : List α) (i : Nat) (hi : i < l.length),
      p (l.get ⟨i, hi⟩) = true →
      (∀ j (hj : j < i), p (l.get ⟨j, hj.trans hi⟩) = false) →
      l.find? p = some (l.get ⟨i, hi⟩)
  | a :: l, 0, _, hp, _ => by
    simp only [List.get] at hp ⊢
    exact List.find?_cons_of_pos _ hp
  | a :: l, i + 1, hi, hp, hfirst => by
    have ha : p a = false := hfirst 0 (Nat.succ_pos i)
    simp only [List.get] at hp ⊢
    rw [List.find?_cons_of_neg _ (by simp [ha])]
    exact find?_of_first p l i (Nat.lt_of_succ_lt_succ hi) hp
      fun j hj => hfirst (j + 1) (Nat.succ_lt_succ hj)

theorem edimMatches_iff (e : EDim) (a : Int) :
    edimMatches e a = true ↔ (e.isWildcard = true ∨ e = .int a) := by
  cases e <;> simp [edimMatches, EDim.isWildcard]

/-- Does the computation fail with `ModelNotFoundError`? -/
def isModelNotFound {α : Type} : Except DomainError α → Bool
  | .error (.modelNotFound _) => true
  | _ => false

/-- Does the computation fail with `ModelNotDeployedError`? -/
def isModelNotDeployed {α : Type} : Except DomainError α → Bool
  | .error (.modelNotDeployed _) => true
  | _ => false

/-! ## Claim theorems -/

/-- C1: on either transport an explicit dtype tag that differs from the
model's declared input element type fails with InvalidInput (dtype
mismatch); the `string-unsupported` tag always fails with InvalidInput;
the `unspecified` tag behaves exactly as an absent tag, deriving the
element type from the model. -/
theorem c1_dtype_tag :
    (∀ (t modelType : NPD), t ≠ modelType →
      effectiveInputDtypeOpt (some (.tagged t)) modelType =
        .error (.invalidInput "dtype mismatch")) ∧
    (∀ modelType, isInvalidInput
        (effectiveInputDtypeOpt (some .stringUnsupported) modelType) = true) ∧
    (∀ modelType, effectiveInputDtypeOpt (some .unspecified) modelType =
        effectiveInputDtypeOpt none modelType) ∧
    (∀ modelType, isInvalidInput
        (effectiveInputDtypeOpt (some (protoToTag .stringT)) modelType) = true) ∧
    (∀ (t modelType : NPD), t = modelType →
      effectiveInputDtypeOpt (some (.tagged t)) modelType = .ok modelType) := by
  refine ⟨fun t m h => ?_, fun m => rfl, fun m => rfl, fun m => rfl,
    fun t m h => ?_⟩
  · simp [effectiveInputDtypeOpt, effectiveInputDtype, h]
  · simp [effectiveInputDtypeOpt, effectiveInputDtype, h]

/-- Witness for C1 at concrete dtypes. -/
theorem c1_dtype_tag_witness :
    NPD.f32 ≠ NPD.i64 ∧
    effectiveInputDtypeOpt (some (.tagged .f32)) .i64 =
      .error (.invalidInput "dtype mismatch") :=
  ⟨by decide, c1_dtype_tag.1 .f32 .i64 (by decide)⟩

/-- C2: the transports translate domain errors exactly as follows:
ModelNotFound → 404 / NOT_FOUND, ModelNotDeployed → 400 /
FAILED_PRECONDITION, InvalidInput → 400 / INVALID_ARGUMENT, any internal
error → 500 / INTERNAL. -/
theorem c2_error_translation :
    (∀ m, restStatusOf (.modelNotFound m) = 404 ∧
      grpcStatusOf (.modelNotFound m) = .notFound) ∧
    (∀ m, restStatusOf (.modelNotDeployed m) = 400 ∧
      grpcStatusOf (.modelNotDeployed m) = .failedPrecondition) ∧
    (∀ m, restStatusOf (.invalidInput m) = 400 ∧
      grpcStatusOf (.invalidInput m) = .invalidArgument) ∧
    (∀ m, restStatusOf (.internal m) = 500 ∧
      grpcStatusOf (.internal m) = .internal) :=
  ⟨fun _ => ⟨rfl, rfl⟩, fun _ => ⟨rfl, rfl⟩, fun _ => ⟨rfl, rfl⟩,
    fun _ => ⟨rfl, rfl⟩⟩

/-- C3: `resolve` scans the records matching the name in storage order:
no record → ModelNotFound; records but none Deployed → ModelNotDeployed;
otherwise the file id of the first Deployed record is returned, with no
error even when several records are deployed. -/
theorem c3_resolve_deployed (modelName : String) (store : List ModelDoc) :
    (store.filter (fun d => d.name = modelName) = [] →
      isModelNotFound (resolveDeployedFileId modelName store) = true) ∧
    ((store.filter (fun d => d.name = modelName)) ≠ [] →
      (∀ d ∈ store.filter (fun d => d.name = modelName), d.status ≠ "Deployed") →
      isModelNotDeployed (resolveDeployedFileId modelName store) = true) ∧
    (∀ i (hi : i < (store.filter (fun d => d.name = modelName)).length),
      ((store.filter (fun d => d.name = modelName)).get ⟨i, hi⟩).status = "Deployed" →
      (∀ j (hj : j < i),
        ((store.filter (fun d => d.name = modelName)).get ⟨j, hj.trans hi⟩).status ≠
          "Deployed") →
      resolveDeployedFileId modelName store =
        .ok ((store.filter (fun d => d.name = modelName)).get ⟨i, hi⟩).fileId) := by
  refine ⟨fun h => ?_, fun hne hnd => ?_, fun i hi hdep hfirst => ?_⟩
  · simp [resolveDeployedFileId, h, isModelNotFound]
  · have hfind : (store.filter (fun d => d.name = modelName)).find?
        (fun d => d.status = "Deployed") = none := by
      rw [List.find?_eq_none]
      intro d hd
      simpa using hnd d hd
    simp only [resolveDeployedFileId, hfind]
    rw [if_neg (by simpa [List.isEmpty_iff] using hne)]
    rfl
  · have hfind : (store.filter (fun d => d.name = modelName)).find?
        (fun d => d.status = "Deployed") =
        some ((store.filter (fun d => d.name = modelName)).get ⟨i, hi⟩) := by
      refine find?_of_first _ _ i hi (by simpa using hdep) fun j hj => ?_
      simpa using hfirst j hj
    have hne : (store.filter (fun d => d.name = modelName)) ≠ [] := by
      intro h
      rw [h] at hi
      exact absurd hi (by simp)
    simp only [resolveDeployedFileId, hfind]
    rw [if_neg (by simpa [List.isEmpty_iff] using hne)]

/-- A concrete store with two Deployed records for the same name. -/
def storeEx : List ModelDoc :=
  [⟨"m", "Uploaded", 1⟩, ⟨"m", "Deployed", 2⟩, ⟨"m", "Deployed", 3⟩]

/-- Witness for C3: two Deployed records for one name, the first in
storage order wins. -/
theorem c3_resolve_deployed_witness :
    resolveDeployedFileId "m" storeEx = .ok 2 := by
  have hi : 1 < (storeEx.filter (fun d => d.name = "m")).length := by decide
  have hdep : ((storeEx.filter (fun d => d.name = "m")).get ⟨1, hi⟩).status =
      "Deployed" := rfl
  have hfirst : ∀ j (hj : j < 1),
      ((storeEx.filter (fun d => d.name = "m")).get ⟨j, hj.trans hi⟩).status ≠
        "Deployed" := by
    intro j hj
    have hj0 : j = 0 := by omega
    subst hj0
    simp [storeEx]
  have h := (c3_resolve_deployed "m" storeEx).2.2 1 hi hdep hfirst
  simpa using h

/-- A model whose input[0] is a float32 scalar: ONNX Runtime reports the
declared shape as the empty list. -/
def metaScalar : ModelMeta := ⟨"x", "tensor(float)", some []⟩

/-- C4 counterexample: with a declared input shape of rank 0 (`[]` is
falsy in Python, so `run_from_bytes` skips the shape check) a request of
rank 1 does NOT fail with InvalidInput — the pipeline accepts the array
even though the ranks differ. -/
theorem c4_counterexample :
    List.length ([1] : List Int) ≠ List.length ([] : List EDim) ∧
    metaScalar.inputShape = some [] ∧
    isInvalidInput (runFromBytesCore metaScalar [1] [0, 0, 0, 0] "") = false ∧
    runFromBytesCore metaScalar [1] [0, 0, 0, 0] "" =
      .ok ⟨[1], [0, 0, 0, 0], .f32⟩ := by
  refine ⟨by decide, rfl, ?_, ?_⟩ <;> rfl

/-- C4 (amended): the shape compatibility check succeeds iff ranks are
equal and each expected dimension is a wildcard (`None`, `-1` or a
symbolic string) or equal to the actual one; and for every request with
non-negative dims (the data model's domain, on which `numpyFromBytes` is
a faithful embedding — NumPy's reshape rejects paired negative dims
outside the InvalidInput taxonomy) whose rank differs from a NON-EMPTY
declared input shape, `run_from_bytes` fails with InvalidInput (when the
declared shape is empty or absent, the check is skipped). -/
theorem c4_shape_check :
    (∀ (expected : List EDim) (actual : List Int),
      shapeCompatible expected actual = true ↔
        (expected.length = actual.length ∧
          ∀ i (h1 : i < expected.length) (h2 : i < actual.length),
            (expected.get ⟨i, h1⟩).isWildcard = true ∨
              expected.get ⟨i, h1⟩ = .int (actual.get ⟨i, h2⟩))) ∧
    (∀ (meta : ModelMeta) (l : List EDim) (dims : List Int) (raw : List UInt8)
        (pname : String),
      meta.inputShape = some l → l ≠ [] → (∀ d ∈ dims, 0 ≤ d) →
      dims.length ≠ l.length →
      isInvalidInput (runFromBytesCore meta dims raw pname) = true) := by
  constructor
  · intro expected actual
    rw [shapeCompatible_iff_forall₂, List.forall₂_iff_get]
    constructor
    · rintro ⟨hl, h⟩
      exact ⟨hl, fun i h1 h2 => (edimMatches_iff _ _).mp (h i h1 h2)⟩
    · rintro ⟨hl, h⟩
      exact ⟨hl, fun i h1 h2 => (edimMatches_iff _ _).mpr (h i h1 h2)⟩
  · intro meta l dims raw pname hshape hne _ hrank
    unfold runFromBytesCore
    cases honnx : onnxToNp meta.inputType with
    | none => rfl
    | some npd =>
      dsimp only
      by_cases hname : pname ≠ "" ∧ pname ≠ meta.inputName
      · rw [if_pos hname]
        rfl
      · rw [if_neg hname]
        cases hnb : numpyFromBytes raw dims npd with
        | error e =>
          obtain ⟨m, rfl⟩ := numpyFromBytes_error_invalid hnb
          rfl
        | ok arr =>
          dsimp only
          have harr : arr = ⟨dims, raw, npd⟩ := numpyFromBytes_ok hnb
          have hcompat : shapeCompatible l arr.shape = false := by
            rw [harr]
            cases hc : shapeCompatible l dims with
            | false => rfl
            | true => exact absurd (shapeCompatible_length hc).symm hrank
          have hguard : shapeGuardFails meta.inputShape arr.shape = true := by
            rw [hshape]
            simp [shapeGuardFails, hne, hcompat]
          rw [hguard]
          rfl

/-- Witness for C4's implication part at a concrete rank mismatch. -/
theorem c4_shape_check_witness :
    isInvalidInput
      (runFromBytesCore ⟨"x", "tensor(float)", some [.int 2, .noneD]⟩
        [2] [0, 0, 0, 0, 0, 0, 0, 0] "") = true :=
  c4_shape_check.2 ⟨"x", "tensor(float)", some [.int 2, .noneD]⟩
    [.int 2, .noneD] [2] [0, 0, 0, 0, 0, 0, 0, 0] "" rfl (by decide)
    (by decide) (by decide)

/-- C5: binary decoding fails with InvalidInput exactly when `dims` is
empty or the buffer length differs from `prod(dims) * elem_size`
(bool elem size 1); the size-mismatch error carries the actual byte count
and the expected element count and element size; otherwise (for the
non-negative dims of the request data model) it returns the row-major
array of shape `dims` over the given bytes. -/
theorem c5_binary_decode (buf : List UInt8) (dims : List Int) (dtype : NPD) :
    (isInvalidInput (numpyFromBytes buf dims dtype) = true ↔
      (dims = [] ∨ (buf.length : Int) ≠ dims.foldl (· * ·) 1 * elemSize dtype)) ∧
    (dims ≠ [] → (buf.length : Int) ≠ dims.foldl (· * ·) 1 * elemSize dtype →
      numpyFromBytes buf dims dtype =
        .error (.invalidInput
          (sizeMismatchMsg buf.length (dims.foldl (· * ·) 1) (elemSize dtype)))) ∧
    ((∀ d ∈ dims, 0 ≤ d) → dims ≠ [] →
      (buf.length : Int) = dims.foldl (· * ·) 1 * elemSize dtype →
      numpyFromBytes buf dims dtype = .ok ⟨dims, buf, dtype⟩) := by
  by_cases hd : dims = []
  · refine ⟨?_, fun hne => absurd hd hne, fun _ hne => absurd hd hne⟩
    simp [numpyFromBytes, hd, isInvalidInput]
  · by_cases hs : (buf.length : Int) ≠ dims.foldl (· * ·) 1 * elemSize dtype
    · refine ⟨?_, fun _ _ => ?_, fun _ _ hlen => absurd hlen hs⟩
      · simp only [numpyFromBytes, if_neg hd, if_pos hs]
        simp [isInvalidInput, hs]
      · simp only [numpyFromBytes, if_neg hd, if_pos hs]
    · refine ⟨?_, fun _ hlen => absurd hlen hs, fun _ _ _ => ?_⟩
      · simp only [numpyFromBytes, if_neg hd, if_neg hs]
        simp [isInvalidInput, hd, hs]
      · simp only [numpyFromBytes, if_neg hd, if_neg hs]

/-- Witness for C5: a one-byte-short buffer fails with the exact
counts in the message; the right-sized buffer decodes. -/
theorem c5_binary_decode_witness :
    numpyFromBytes [1, 0, 1, 0] [3] .boolT =
      .error (.invalidInput (sizeMismatchMsg 4 3 1)) ∧
    numpyFromBytes [1, 0, 1] [3] .boolT = .ok ⟨[3], [1, 0, 1], .boolT⟩ :=
  ⟨(c5_binary_decode [1, 0, 1, 0] [3] .boolT).2.1 (by decide) (by decide),
   (c5_binary_decode [1, 0, 1] [3] .boolT).2.2 (by decide) (by decide) (by decide)⟩

/-- C10 counterexample: a dims list with a negative entry need not fail
with InvalidInput — two `-1` entries have positive product, so a 4-byte
float32 buffer passes the size check and `_numpy_from_bytes` raises no
InvalidInputError (the later NumPy reshape error is not an
InvalidInputError either). -/
theorem c10_counterexample :
    ((-1 : Int) ∈ ([-1, -1] : List Int) ∧ (-1 : Int) < 0) ∧
    isInvalidInput (numpyFromBytes [0, 0, 0, 0] [-1, -1] .f32) = false := by
  refine ⟨by decide, rfl⟩

/-- C10 (amended): a non-empty all-non-negative dims list containing a
zero decodes empty content into an empty array of shape `dims` (despite
the data model restricting dims to positive integers); and a dims list
whose PRODUCT is negative always fails with InvalidInput — a negative
expected byte count can never match — though paired negative entries can
cancel and pass the size check. -/
theorem c10_zero_dims (dtype : NPD) :
    (∀ dims : List Int, dims ≠ [] → (∀ d ∈ dims, 0 ≤ d) → (0 : Int) ∈ dims →
      numpyFromBytes [] dims dtype = .ok ⟨dims, [], dtype⟩) ∧
    (∀ (buf : List UInt8) (dims : List Int),
      dims.foldl (· * ·) 1 < 0 →
      isInvalidInput (numpyFromBytes buf dims dtype) = true) := by
  have hsize : (0 : Int) < elemSize dtype := by
    cases dtype <;> simp [elemSize, NPD.itemsize]
  constructor
  · intro dims hne _ hzero
    have hprod : dims.foldl (· * ·) 1 = 0 := by
      rw [← List.prod_eq_foldl]
      exact List.prod_eq_zero hzero
    simp [numpyFromBytes, hne, hprod]
  · intro buf dims hneg
    have hne : dims ≠ [] := by
      intro h
      rw [h] at hneg
      exact absurd hneg (by decide)
    have hexp : dims.foldl (· * ·) 1 * elemSize dtype < 0 :=
      mul_neg_of_neg_of_pos hneg hsize
    have hmis : (buf.length : Int) ≠ dims.foldl (· * ·) 1 * elemSize dtype := by
      intro h
      have : (0 : Int) ≤ (buf.length : Int) := Int.ofNat_nonneg _
      omega
    simp [numpyFromBytes, hne, hmis, isInvalidInput]

/-- Witness for C10's amended statement at concrete inputs. -/
theorem c10_zero_dims_witness :
    numpyFromBytes [] [2, 0] .f32 = .ok ⟨[2, 0], [], .f32⟩ ∧
    isInvalidInput (numpyFromBytes [] [-1] .f32) = true :=
  ⟨(c10_zero_dims .f32).1 [2, 0] (by decide) (by decide) (by decide),
   (c10_zero_dims .f32).2 [] [-1] (by decide)⟩

/-! ## Sequential cache lemmas -/

theorem lookupC_removeC_self (c : SeqCache) (k : Nat) :
    lookupC (removeC c k) k = none := by
  unfold lookupC removeC
  rw [List.find?_eq_none.mpr]
  · rfl
  · intro p hp
    have := (List.mem_filter.mp hp).2
    simpa using this

theorem lookupC_eq_none_iff (c : SeqCache) (k : Nat) :
    lookupC c k = none ↔ k ∉ c.map Prod.fst := by
  unfold lookupC
  constructor
  · intro h hk
    obtain ⟨p, hp, hfst⟩ := List.mem_map.mp hk
    rcases hf : c.find? (fun p => p.1 = k) with _ | q
    · exact absurd (by simpa using List.find?_eq_none.mp hf p hp) (by simp [hfst])
    · simp [hf] at h
  · intro hk
    rw [List.find?_eq_none.mpr]
    · rfl
    · intro p hp
      simp only [decide_eq_true_eq]
      intro hfst
      exact hk (List.mem_map.mpr ⟨p, hp, hfst⟩)

theorem setC_of_not_mem {c : SeqCache} {k : Nat} (e : CEntry)
    (h : k ∉ c.map Prod.fst) : setC c k e = c ++ [(k, e)] := by
  induction c with
  | nil => rfl
  | cons p rest ih =>
    simp only [List.map_cons, List.mem_cons] at h
    push_neg at h
    simp only [setC, if_neg (Ne.symm h.1)]
    rw [ih h.2]
    rfl

theorem getIfFresh_expired {ttl now : Nat} {c : SeqCache} {k : Nat} {e : CEntry}
    (hT : 0 < ttl) (hlook : lookupC c k = some e)
    (hold : ttl < now - e.loadedAt) :
    getIfFresh ttl now c k = (none, removeC c k) := by
  unfold getIfFresh
  rw [hlook]
  dsimp only
  rw [if_pos ⟨hT, hold⟩]

theorem getIfFresh_miss {ttl now : Nat} {c : SeqCache} {k : Nat}
    (hlook : lookupC c k = none) : getIfFresh ttl now c k = (none, c) := by
  unfold getIfFresh
  rw [hlook]

theorem getIfFresh_hit {ttl now : Nat} {c : SeqCache} {k : Nat} {e : CEntry}
    (hlook : lookupC c k = some e)
    (hfresh : ¬(0 < ttl ∧ ttl < now - e.loadedAt)) :
    getIfFresh ttl now c k = (some e.sess, setC c k { e with lastUsed := now }) := by
  unfold getIfFresh
  rw [hlook]
  dsimp only
  rw [if_neg hfresh]

theorem getSession_of_miss {maxE : Int} {ttl now : Nat} {st : CacheState} {k : Nat}
    (hlook : lookupC st.cache k = none) :
    getSession maxE ttl now st k =
      ((st.loads, true),
        ⟨evictIfNeeded maxE (setC st.cache k ⟨st.loads, now, now⟩), st.loads + 1⟩) := by
  unfold getSession
  rw [getIfFresh_miss hlook]
  dsimp only
  rw [getIfFresh_miss hlook]

/-- C6: with TTL = T > 0 a lookup finding an entry older than T removes it
and proceeds as a miss, so a get at any time later than T after the
entry's load performs a second blob read and session construction; with
TTL = 0 a present entry is never expired by age. -/
theorem c6_ttl :
    (∀ (T now : Nat) (c : SeqCache) (k : Nat) (e : CEntry), 0 < T →
      lookupC c k = some e → T < now - e.loadedAt →
      getIfFresh T now c k = (none, removeC c k)) ∧
    (∀ (maxE : Int) (T now : Nat) (st : CacheState) (k : Nat) (e : CEntry),
      0 < T → lookupC st.cache k = some e → e.loadedAt + T < now →
      (getSession maxE T now st k).1.2 = true ∧
      (getSession maxE T now st k).2.loads = st.loads + 1) ∧
    (∀ (now : Nat) (c : SeqCache) (k : Nat) (e : CEntry),
      lookupC c k = some e → (getIfFresh 0 now c k).1 = some e.sess) := by
  refine ⟨fun T now c k e hT hlook hold => getIfFresh_expired hT hlook hold,
    fun maxE T now st k e hT hlook hold => ?_, fun now c k e hlook => ?_⟩
  · have hexp : getIfFresh T now st.cache k = (none, removeC st.cache k) :=
      getIfFresh_expired hT hlook (by omega)
    have hmiss : getIfFresh T now (removeC st.cache k) k =
        (none, removeC st.cache k) :=
      getIfFresh_miss (lookupC_removeC_self _ _)
    unfold getSession
    rw [hexp]
    dsimp only
    rw [hmiss]
    exact ⟨rfl, rfl⟩
  · rw [getIfFresh_hit hlook (by simp)]

/-- Witness for C6: an entry loaded at time 0 with TTL 1 forces a second
load at time 2. -/
theorem c6_ttl_witness :
    (getSession 64 1 2 ⟨[(5, ⟨0, 0, 0⟩)], 1⟩ 5).1.2 = true ∧
    (getSession 64 1 2 ⟨[(5, ⟨0, 0, 0⟩)], 1⟩ 5).2.loads = 2 :=
  c6_ttl.2.1 64 1 2 ⟨[(5, ⟨0, 0, 0⟩)], 1⟩ 5 ⟨0, 0, 0⟩ (by decide) (by decide)
    (by decide)

/-! ## LRU eviction lemmas -/

theorem foldl_lruMin_some :
    ∀ (l : List (Nat × CEntry)) (q : Nat × CEntry),
      ∃ r, l.foldl lruMin (some q) = some r ∧ (r = q ∨ r ∈ l)
  | [], q => ⟨q, rfl, Or.inl rfl⟩
  | p :: l, q => by
    simp only [List.foldl_cons, lruMin]
    by_cases h : p.2.lastUsed < q.2.lastUsed
    · rw [if_pos h]
      obtain ⟨r, hr, hmem⟩ := foldl_lruMin_some l p
      exact ⟨r, hr, Or.inr (by rcases hmem with h' | h' <;> simp [h'])⟩
    · rw [if_neg h]
      obtain ⟨r, hr, hmem⟩ := foldl_lruMin_some l q
      exact ⟨r, hr, by rcases hmem with h' | h' <;> simp [h']⟩

theorem foldl_lruMin_keep :
    ∀ (l : List (Nat × CEntry)) (q : Nat × CEntry),
      (∀ p ∈ l, ¬ p.2.lastUsed < q.2.lastUsed) →
      l.foldl lruMin (some q) = some q
  | [], _, _ => rfl
  | p :: l, q, h => by
    simp only [List.foldl_cons, lruMin]
    rw [if_neg (h p (by simp))]
    exact foldl_lruMin_keep l q fun p' hp' => h p' (by simp [hp'])

theorem findLRU_head (k0 : Nat) (e0 : CEntry) (rest : SeqCache)
    (h : ∀ p ∈ rest, e0.lastUsed ≤ p.2.lastUsed) :
    findLRU ((k0, e0) :: rest) = some k0 := by
  unfold findLRU
  rw [List.foldl_cons]
  rw [show lruMin none (k0, e0) = some (k0, e0) from rfl]
  rw [foldl_lruMin_keep rest (k0, e0) fun p hp => not_lt.mpr (h p hp)]
  rfl

theorem findLRU_mem {c : SeqCache} {k : Nat} (h : findLRU c = some k) :
    k ∈ c.map Prod.fst := by
  cases c with
  | nil => exact absurd h (by simp [findLRU])
  | cons p rest =>
    unfold findLRU at h
    rw [List.foldl_cons, show lruMin none p = some p from rfl] at h
    obtain ⟨r, hr, hmem⟩ := foldl_lruMin_some rest p
    rw [hr] at h
    have hk : k = r.1 := by simpa using h.symm
    subst hk
    rcases hmem with h' | h'
    · simp [h']
    · exact List.mem_map.mpr ⟨r, by simp [h'], rfl⟩

theorem findLRU_cons_some (p : Nat × CEntry) (rest : SeqCache) :
    ∃ k, findLRU (p :: rest) = some k := by
  unfold findLRU
  rw [List.foldl_cons, show lruMin none p = some p from rfl]
  obtain ⟨r, hr, _⟩ := foldl_lruMin_some rest p
  exact ⟨r.1, by rw [hr]; rfl⟩

theorem removeC_of_not_mem {c : SeqCache} {k : Nat}
    (h : k ∉ c.map Prod.fst) : removeC c k = c := by
  unfold removeC
  rw [List.filter_eq_self.mpr]
  intro p hp
  simp only [decide_eq_true_eq]
  intro hfst
  exact h (List.mem_map.mpr ⟨p, hp, hfst⟩)

theorem removeC_head {k0 : Nat} {e0 : CEntry} {rest : SeqCache}
    (h : k0 ∉ rest.map Prod.fst) :
    removeC ((k0, e0) :: rest) k0 = rest := by
  unfold removeC
  rw [List.filter_cons_of_neg (by simp)]
  exact removeC_of_not_mem h

theorem length_removeC_lt {c : SeqCache} {k : Nat}
    (h : k ∈ c.map Prod.fst) : (removeC c k).length < c.length := by
  obtain ⟨p, hp, hfst⟩ := List.mem_map.mp h
  unfold removeC
  refine List.length_filter_lt_length_iff_exists.mpr ⟨p, hp, ?_⟩
  simp [hfst]

theorem evictGo_of_le {maxE : Int} {c : SeqCache}
    (h : (c.length : Int) ≤ maxE) : ∀ fuel, evictGo maxE fuel c = c
  | 0 => rfl
  | fuel + 1 => by simp [evictGo, not_lt.mpr h]

theorem evictIfNeeded_of_le {maxE : Int} {c : SeqCache}
    (h : (c.length : Int) ≤ maxE) : evictIfNeeded maxE c = c := by
  unfold evictIfNeeded
  split
  · rfl
  · exact evictGo_of_le h _

theorem evictIfNeeded_of_nonpos {maxE : Int} (c : SeqCache)
    (h : maxE ≤ 0) : evictIfNeeded maxE c = c := by
  unfold evictIfNeeded
  rw [if_pos h]

theorem evictGo_bound {maxE : Int} (hpos : 0 < maxE) :
    ∀ (fuel : Nat) (c : SeqCache), (c.length : Int) ≤ maxE + fuel →
      ((evictGo maxE fuel c).length : Int) ≤ maxE
  | 0, c, h => by simpa [evictGo] using h
  | fuel + 1, c, h => by
    unfold evictGo
    split
    · rename_i hlen
      cases c with
      | nil => exact absurd hlen (by simp; omega)
      | cons p rest =>
        obtain ⟨k, hk⟩ := findLRU_cons_some p rest
        rw [hk]
        refine evictGo_bound hpos fuel _ ?_
        have hlt := length_removeC_lt (findLRU_mem hk)
        have : ((removeC (p :: rest) k).length : Int) < ((p :: rest).length : Int) := by
          exact_mod_cast hlt
        omega
    · rename_i hlen
      omega

theorem evictIfNeeded_bound {maxE : Int} (hpos : 0 < maxE) (c : SeqCache) :
    ((evictIfNeeded maxE c).length : Int) ≤ maxE := by
  unfold evictIfNeeded
  rw [if_neg (by omega)]
  exact evictGo_bound hpos c.length c (by omega)

/-! ## The LRU scenario: loading fresh keys in order -/

/-- The cache contents after loading `(key, time)` pairs in order into an
empty cache with no eviction: session ids count up from `i`, and
`loadedAt = lastUsed = time`. -/
def buildC (i : Nat) : List (Nat × Nat) → SeqCache
  | [] => []
  | (k, t) :: rest => (k, ⟨i, t, t⟩) :: buildC (i + 1) rest

theorem buildC_map_fst : ∀ (l : List (Nat × Nat)) (i : Nat),
    (buildC i l).map Prod.fst = l.map Prod.fst
  | [], _ => rfl
  | (k, t) :: rest, i => by
    simp only [buildC, List.map_cons, buildC_map_fst rest (i + 1)]

theorem buildC_length : ∀ (l : List (Nat × Nat)) (i : Nat),
    (buildC i l).length = l.length
  | [], _ => rfl
  | (k, t) :: rest, i => by
    simp only [buildC, List.length_cons, buildC_length rest (i + 1)]

theorem buildC_append : ∀ (l : List (Nat × Nat)) (i k t : Nat),
    buildC i (l ++ [(k, t)]) = buildC i l ++ [(k, ⟨i + l.length, t, t⟩)]
  | [], i, k, t => by simp [buildC]
  | (k', t') :: rest, i, k, t => by
    show (k', ⟨i, t', t'⟩) :: buildC (i + 1) (rest ++ [(k, t)]) =
      (k', ⟨i, t', t'⟩) ::
        (buildC (i + 1) rest ++ [(k, ⟨i + (rest.length + 1), t, t⟩)])
    rw [buildC_append rest (i + 1) k t]
    have h : i + 1 + rest.length = i + (rest.length + 1) := by omega
    rw [h]

theorem buildC_lastUsed_mem : ∀ (l : List (Nat × Nat)) (i : Nat),
    ∀ p ∈ buildC i l, p.2.lastUsed ∈ l.map Prod.snd
  | [], _, p, hp => absurd hp (by simp [buildC])
  | (k, t) :: rest, i, p, hp => by
    simp only [buildC, List.mem_cons] at hp
    rcases hp with hp | hp
    · simp [hp]
    · exact List.mem_cons_of_mem _ (buildC_lastUsed_mem rest (i + 1) p hp)

theorem loadSeq_append (maxE : Int) (ttl : Nat) :
    ∀ (a b : List (Nat × Nat)) (st : CacheState),
      loadSeq maxE ttl (a ++ b) st = loadSeq maxE ttl b (loadSeq maxE ttl a st)
  | [], _, _ => rfl
  | (k, t) :: a, b, st => by
    simp only [List.cons_append, loadSeq]
    exact loadSeq_append maxE ttl a b _

theorem loadSeq_no_evict (maxE : Int) :
    ∀ (rest pre : List (Nat × Nat)),
      ((pre ++ rest).map Prod.fst).Nodup →
      ((pre.length + rest.length : Nat) : Int) ≤ maxE →
      loadSeq maxE 0 rest ⟨buildC 0 pre, pre.length⟩ =
        ⟨buildC 0 (pre ++ rest), (pre ++ rest).length⟩
  | [], pre, _, _ => by simp [loadSeq]
  | (k, t) :: rest, pre, hnodup, hlen => by
    have hmapapp : (pre ++ (k, t) :: rest).map Prod.fst =
        pre.map Prod.fst ++ (k :: rest.map Prod.fst) := by simp
    have hknotin : k ∉ pre.map Prod.fst := by
      rw [hmapapp] at hnodup
      have hdisj := (List.nodup_append.mp hnodup).2.2
      intro hk
      exact hdisj hk (by simp)
    have hlook : lookupC (buildC 0 pre) k = none := by
      rw [lookupC_eq_none_iff, buildC_map_fst]
      exact hknotin
    simp only [loadSeq]
    rw [getSession_of_miss hlook]
    have hset : setC (buildC 0 pre) k ⟨pre.length, t, t⟩ =
        buildC 0 pre ++ [(k, ⟨pre.length, t, t⟩)] :=
      setC_of_not_mem _ (by rw [buildC_map_fst]; exact hknotin)
    have happ : buildC 0 pre ++ [(k, ⟨pre.length, t, t⟩)] =
        buildC 0 (pre ++ [(k, t)]) := by
      rw [buildC_append]
      simp
    have hevict : evictIfNeeded maxE (buildC 0 (pre ++ [(k, t)])) =
        buildC 0 (pre ++ [(k, t)]) := by
      refine evictIfNeeded_of_le ?_
      rw [buildC_length]
      simp only [List.length_append, List.length_cons, List.length_nil]
        at hlen ⊢
      omega
    simp only [hset, happ, hevict]
    have hre : pre ++ (k, t) :: rest = (pre ++ [(k, t)]) ++ rest := by simp
    rw [hre] at hnodup ⊢
    have hrec := loadSeq_no_evict maxE rest (pre ++ [(k, t)]) hnodup
      (by simp only [List.length_append, List.length_cons, List.length_nil]
            at hlen ⊢
          omega)
    have hl1 : (pre ++ [(k, t)]).length = pre.length + 1 := by simp
    rw [hl1] at hrec
    exact hrec

/-- C7: with capacity max > 0, after a load the cache is reduced to at
most max entries by repeatedly dropping the smallest-`lastUsed` entry;
loading max+1 distinct keys in order (touching none) leaves the
first-loaded key absent and the other max keys present; with capacity ≤ 0
size-based eviction never occurs. -/
theorem c7_lru :
    (∀ (maxE : Int) (c : SeqCache), 0 < maxE →
      ((evictIfNeeded maxE c).length : Int) ≤ maxE) ∧
    (∀ (maxE : Int) (c : SeqCache), maxE ≤ 0 → evictIfNeeded maxE c = c) ∧
    (∀ (maxE : Int) (k0 t0 : Nat) (rest : List (Nat × Nat)) (kN tN : Nat),
      0 < maxE →
      ((((k0, t0) :: rest).length : Nat) : Int) = maxE →
      ((((k0, t0) :: rest) ++ [(kN, tN)]).map Prod.fst).Nodup →
      List.Pairwise (· ≤ ·) ((((k0, t0) :: rest) ++ [(kN, tN)]).map Prod.snd) →
      lookupC (loadSeq maxE 0 (((k0, t0) :: rest) ++ [(kN, tN)]) ⟨[], 0⟩).cache
          k0 = none ∧
      (∀ k ∈ (rest ++ [(kN, tN)]).map Prod.fst,
        lookupC (loadSeq maxE 0 (((k0, t0) :: rest) ++ [(kN, tN)]) ⟨[], 0⟩).cache
            k ≠ none)) := by
  refine ⟨fun maxE c h => evictIfNeeded_bound h c,
    fun maxE c h => evictIfNeeded_of_nonpos c h,
    fun maxE k0 t0 rest kN tN hpos hlen hnodup hmono => ?_⟩
  set pairs : List (Nat × Nat) := (k0, t0) :: rest with hpairs
  have hloadpre : loadSeq maxE 0 pairs ⟨[], 0⟩ = ⟨buildC 0 pairs, pairs.length⟩ := by
    have hn : (([] ++ pairs).map Prod.fst).Nodup := by
      simp only [List.nil_append]
      rw [List.map_append] at hnodup
      exact (List.nodup_append.mp hnodup).1
    have := loadSeq_no_evict maxE pairs [] hn
      (by simp only [List.length_nil, Nat.zero_add]; omega)
    simpa [buildC] using this
  rw [loadSeq_append]
  rw [hloadpre]
  -- the final load misses and triggers one eviction of the head entry
  have hkNnotin : kN ∉ pairs.map Prod.fst := by
    rw [List.map_append] at hnodup
    have hdisj := (List.nodup_append.mp hnodup).2.2
    intro hk
    exact hdisj hk (by simp)
  have hlook : lookupC (buildC 0 pairs) kN = none := by
    rw [lookupC_eq_none_iff, buildC_map_fst]
    exact hkNnotin
  simp only [loadSeq]
  rw [getSession_of_miss hlook]
  have hset : setC (buildC 0 pairs) kN (⟨pairs.length, tN, tN⟩ : CEntry) =
      buildC 0 pairs ++ [(kN, (⟨pairs.length, tN, tN⟩ : CEntry))] :=
    setC_of_not_mem _ (by rw [buildC_map_fst]; exact hkNnotin)
  -- the inserted cache in head-tail form
  have hform : buildC 0 pairs ++ [(kN, (⟨pairs.length, tN, tN⟩ : CEntry))] =
      (k0, (⟨0, t0, t0⟩ : CEntry)) :: (buildC 1 rest ++ [(kN, (⟨pairs.length, tN, tN⟩ : CEntry))]) := by
    simp [hpairs, buildC]
  have hmono' : List.Pairwise (· ≤ ·) (t0 :: (rest.map Prod.snd ++ [tN])) := by
    simpa only [List.cons_append, List.map_cons, List.map_append,
      List.map_nil] using hmono
  have hmonohead : ∀ x ∈ rest.map Prod.snd ++ [tN], t0 ≤ x := fun x hx =>
    (List.pairwise_cons.mp hmono').1 x hx
  have htailmin : ∀ p ∈ buildC 1 rest ++ [(kN, (⟨pairs.length, tN, tN⟩ : CEntry))],
      (⟨0, t0, t0⟩ : CEntry).lastUsed ≤ p.2.lastUsed := by
    intro p hp
    rcases List.mem_append.mp hp with hp | hp
    · exact hmonohead _
        (List.mem_append.mpr (Or.inl (buildC_lastUsed_mem rest 1 p hp)))
    · have hpe : p = (kN, (⟨pairs.length, tN, tN⟩ : CEntry)) := by simpa using hp
      subst hpe
      exact hmonohead tN (by simp)
  have hn' : k0 ∉ rest.map Prod.fst ++ [kN] := by
    have hcons : (k0 :: (rest.map Prod.fst ++ [kN])).Nodup := by
      simpa only [List.cons_append, List.map_cons, List.map_append,
        List.map_nil] using hnodup
    exact (List.nodup_cons.mp hcons).1
  have hk0tail : k0 ∉ (buildC 1 rest ++ [(kN, (⟨pairs.length, tN, tN⟩ : CEntry))]).map
      Prod.fst := by
    rw [List.map_append, buildC_map_fst]
    simpa using hn'
  have hfind : findLRU ((k0, (⟨0, t0, t0⟩ : CEntry)) ::
      (buildC 1 rest ++ [(kN, (⟨pairs.length, tN, tN⟩ : CEntry))])) = some k0 :=
    findLRU_head _ _ _ htailmin
  have htaillen : (buildC 1 rest ++ [(kN, (⟨pairs.length, tN, tN⟩ : CEntry))]).length =
      pairs.length := by
    simp [buildC_length, hpairs]
  have hevict : evictIfNeeded maxE
      (buildC 0 pairs ++ [(kN, (⟨pairs.length, tN, tN⟩ : CEntry))]) =
      buildC 1 rest ++ [(kN, (⟨pairs.length, tN, tN⟩ : CEntry))] := by
    rw [hform]
    unfold evictIfNeeded
    rw [if_neg (by omega)]
    have hlen1 : ((k0, (⟨0, t0, t0⟩ : CEntry)) ::
        (buildC 1 rest ++ [(kN, (⟨pairs.length, tN, tN⟩ : CEntry))])).length =
        pairs.length + 1 := by
      rw [List.length_cons, htaillen]
    rw [hlen1]
    show evictGo maxE (pairs.length + 1) _ = _
    unfold evictGo
    rw [if_pos (by rw [hlen1]; push_cast; omega)]
    rw [hfind]
    dsimp only
    rw [removeC_head hk0tail]
    exact evictGo_of_le (by rw [htaillen]; omega) _
  rw [hset, hevict]
  constructor
  · rw [lookupC_eq_none_iff, List.map_append, buildC_map_fst]
    simpa using hn'
  · intro k hk
    rw [Ne, lookupC_eq_none_iff, List.map_append, buildC_map_fst]
    have hk' : k ∈ rest.map Prod.fst ++ [kN] := by
      simpa only [List.map_append, List.map_cons, List.map_nil] using hk
    simp only [List.map_cons, List.map_nil]
    exact fun hcon => hcon hk'

/-- Witness for C7: capacity 2, keys 10, 11, 12 loaded at times 0, 1, 2;
key 10 is evicted, keys 11 and 12 remain. -/
theorem c7_lru_witness :
    lookupC (loadSeq 2 0 [(10, 0), (11, 1), (12, 2)] ⟨[], 0⟩).cache 10 =
      none ∧
    lookupC (loadSeq 2 0 [(10, 0), (11, 1), (12, 2)] ⟨[], 0⟩).cache 11 ≠
      none ∧
    lookupC (loadSeq 2 0 [(10, 0), (11, 1), (12, 2)] ⟨[], 0⟩).cache 12 ≠
      none := by
  have h := c7_lru.2.2 2 10 0 [(11, 1)] 12 2 (by decide) (by decide)
    (by decide) (by decide)
  exact ⟨h.1, h.2 11 (by decide), h.2 12 (by decide)⟩

/-! ## Interleaving model: the lock invariant

Only the current per-key lock holder can be between the post-lock
re-check and the release, i.e. in state `woken` or `loading`. -/

/-- A task that is `woken` or `loading` holds the per-key lock. -/
def LInv {n : Nat} (s : MState n) : Prop :=
  ∀ j w, (s.tasks j = .woken w ∨ s.tasks j = .loading w) → s.holder = some j

theorem LInv_clock {n : Nat} {s : MState n} (hL : LInv s) (d : Nat) :
    LInv { s with clock := s.clock + d } := hL

theorem LInv_tryLock {n : Nat} {s : MState n} (i : Fin n) (now : Nat)
    (hL : LInv s) : LInv (tryLock s i now) := by
  unfold tryLock
  cases hh : s.holder with
  | none =>
    intro j w hj
    by_cases hji : j = i
    · subst hji
      rfl
    · simp only [Function.update_noteq hji] at hj
      exact absurd (hL j w hj) (by rw [hh]; simp)
  | some h =>
    dsimp only
    intro j w hj
    by_cases hji : j = i
    · subst hji
      simp only [Function.update_same] at hj
      rcases hj with hj | hj <;> cases hj
    · simp only [Function.update_noteq hji] at hj
      have hjh := hL j w hj
      rw [hh] at hjh
      exact hjh

theorem LInv_release {n : Nat} {s : MState n}
    (hno : ∀ j w, ¬(s.tasks j = .woken w ∨ s.tasks j = .loading w)) :
    LInv (release s) := by
  unfold release
  cases hq : s.queue with
  | nil => exact fun j w hj => absurd hj (hno j w)
  | cons j' rest =>
    intro j w hj
    by_cases hjj : j = j'
    · subst hjj
      rfl
    · simp only [Function.update_noteq hjj] at hj
      exact absurd hj (hno j w)

theorem LInv_stepTask {n : Nat} (ttl : Nat) (i : Fin n) {s : MState n}
    (hL : LInv s) : LInv (stepTask ttl i s) := by
  unfold stepTask
  cases htask : s.tasks i with
  | ready =>
    cases hc : s.cache with
    | some e =>
      dsimp only
      split
      · exact LInv_tryLock i s.clock hL
      · intro j w hj
        by_cases hji : j = i
        · subst hji
          simp only [Function.update_same] at hj
          rcases hj with hj | hj <;> cases hj
        · simp only [Function.update_noteq hji] at hj
          exact hL j w hj
    | none => exact LInv_tryLock i s.clock hL
  | waiting w => exact hL
  | finished v => exact hL
  | woken now =>
    have hhold : s.holder = some i := hL i now (Or.inl htask)
    cases hc : s.cache with
    | some e =>
      dsimp only
      split
      · -- expired: pop and keep the lock as loading
        intro j w hj
        by_cases hji : j = i
        · subst hji
          exact hhold
        · simp only [Function.update_noteq hji] at hj
          exact hL j w hj
      · -- fresh hit: touch, finish, release
        refine LInv_release fun j w hj => ?_
        by_cases hji : j = i
        · subst hji
          simp only [Function.update_same] at hj
          rcases hj with hj | hj <;> cases hj
        · simp only [Function.update_noteq hji] at hj
          have := hL j w hj
          rw [hhold] at this
          exact hji (by injection this; omega)
    | none =>
      intro j w hj
      by_cases hji : j = i
      · subst hji
        exact hhold
      · simp only [Function.update_noteq hji] at hj
        exact hL j w hj
  | loading now =>
    have hhold : s.holder = some i := hL i now (Or.inr htask)
    refine LInv_release fun j w hj => ?_
    by_cases hji : j = i
    · subst hji
      simp only [Function.update_same] at hj
      rcases hj with hj | hj <;> cases hj
    · simp only [Function.update_noteq hji] at hj
      have := hL j w hj
      rw [hhold] at this
      exact hji (by injection this; omega)

theorem LInv_mstep {n : Nat} (ttl : Nat) {s : MState n} (c : Fin n × Nat)
    (hL : LInv s) : LInv (mstep ttl s c) :=
  LInv_stepTask ttl c.1 (LInv_clock hL c.2)

theorem LInv_mrun {n : Nat} (ttl : Nat) (sched : List (Fin n × Nat))
    {s : MState n} (hL : LInv s) : LInv (mrun ttl sched s) := by
  induction sched generalizing s with
  | nil => exact hL
  | cons c rest ih => exact ih (LInv_mstep ttl c hL)

theorem LInv_minit (n : Nat) : LInv (minit n) := by
  intro j w hj
  rcases hj with hj | hj <;> cases hj

/-! ## Interleaving model: the single-flight invariant (TTL disabled)

Starting from the empty cache with the default `MODEL_CACHE_TTL = 0`,
at most one GridFS read and one session construction ever happen, the
cached session is the one every finisher returns, and only the lock
holder can be loading. -/

/-- The burst invariant: the single cached entry is session `0` produced
by the unique load; a task can only finish with that session; a loading
task implies the cache slot is still empty. -/
structure BInv {n : Nat} (s : MState n) : Prop where
  cache_val : ∀ e, s.cache = some e → e.sess = 0 ∧ s.reads = 1 ∧ s.constructs = 1
  cache_none : s.cache = none → s.reads = 0 ∧ s.constructs = 0
  fin_val : ∀ i v, s.tasks i = .finished v → v = 0 ∧ s.cache ≠ none
  loading_none : ∀ i w, s.tasks i = .loading w → s.cache = none

theorem BInv_clock {n : Nat} {s : MState n} (hB : BInv s) (d : Nat) :
    BInv { s with clock := s.clock + d } :=
  ⟨hB.cache_val, hB.cache_none, hB.fin_val, hB.loading_none⟩

theorem wokenOf_eq_finished {t : TaskSt} {v : Nat}
    (h : (match t with | TaskSt.waiting w => TaskSt.woken w | t' => t') =
      TaskSt.finished v) : t = .finished v := by
  cases t <;> simp_all

theorem wokenOf_eq_loading {t : TaskSt} {w : Nat}
    (h : (match t with | TaskSt.waiting w' => TaskSt.woken w' | t' => t') =
      TaskSt.loading w) : t = .loading w := by
  cases t <;> simp_all

theorem BInv_tryLock {n : Nat} {s : MState n} (i : Fin n) (now : Nat)
    (hB : BInv s) : BInv (tryLock s i now) := by
  unfold tryLock
  cases hh : s.holder with
  | none =>
    refine ⟨hB.cache_val, hB.cache_none, fun j v hj => ?_, fun j w hj => ?_⟩
    · by_cases hji : j = i
      · subst hji
        simp only [Function.update_same] at hj
        cases hj
      · simp only [Function.update_noteq hji] at hj
        exact hB.fin_val j v hj
    · by_cases hji : j = i
      · subst hji
        simp only [Function.update_same] at hj
        cases hj
      · simp only [Function.update_noteq hji] at hj
        exact hB.loading_none j w hj
  | some h =>
    refine ⟨hB.cache_val, hB.cache_none, fun j v hj => ?_, fun j w hj => ?_⟩
    · by_cases hji : j = i
      · subst hji
        simp only [Function.update_same] at hj
        cases hj
      · simp only [Function.update_noteq hji] at hj
        exact hB.fin_val j v hj
    · by_cases hji : j = i
      · subst hji
        simp only [Function.update_same] at hj
        cases hj
      · simp only [Function.update_noteq hji] at hj
        exact hB.loading_none j w hj

theorem BInv_release {n : Nat} {s : MState n} (hB : BInv s) :
    BInv (release s) := by
  unfold release
  cases hq : s.queue with
  | nil => exact ⟨hB.cache_val, hB.cache_none, hB.fin_val, hB.loading_none⟩
  | cons q0 qrest =>
    refine ⟨hB.cache_val, hB.cache_none, fun j v hj => ?_, fun j w hj => ?_⟩
    · by_cases hjj : j = q0
      · subst hjj
        simp only [Function.update_same] at hj
        exact hB.fin_val j v (wokenOf_eq_finished hj)
      · simp only [Function.update_noteq hjj] at hj
        exact hB.fin_val j v hj
    · by_cases hjj : j = q0
      · subst hjj
        simp only [Function.update_same] at hj
        exact hB.loading_none j w (wokenOf_eq_loading hj)
      · simp only [Function.update_noteq hjj] at hj
        exact hB.loading_none j w hj

theorem BInv_stepTask {n : Nat} (i : Fin n) {s : MState n}
    (hL : LInv s) (hB : BInv s) : BInv (stepTask 0 i s) := by
  unfold stepTask
  cases htask : s.tasks i with
  | ready =>
    dsimp only
    cases hc : s.cache with
    | some e =>
      dsimp only
      split
      · rename_i hexp
        exact absurd hexp (by simp)
      · obtain ⟨hsess, hr, hcs⟩ := hB.cache_val e hc
        refine BInv.mk ?_ ?_ ?_ ?_
        · intro e' he'
          have he2 : e' = { e with lastUsed := s.clock } := by
            injection he' with h'
            exact h'.symm
          subst he2
          exact ⟨hsess, hr, hcs⟩
        · intro h
          cases h
        · intro j v hj
          by_cases hji : j = i
          · subst hji
            simp only [Function.update_same] at hj
            injection hj with hv
            exact ⟨hv ▸ hsess, by simp⟩
          · simp only [Function.update_noteq hji] at hj
            exact ⟨(hB.fin_val j v hj).1, by simp⟩
        · intro j w hj
          by_cases hji : j = i
          · subst hji
            simp only [Function.update_same] at hj
            cases hj
          · simp only [Function.update_noteq hji] at hj
            exact absurd hc (by rw [hB.loading_none j w hj]; simp)
    | none => exact BInv_tryLock i s.clock hB
  | waiting w => exact hB
  | finished v => exact hB
  | woken now =>
    dsimp only
    cases hc : s.cache with
    | some e =>
      dsimp only
      split
      · rename_i hexp
        exact absurd hexp (by simp)
      · obtain ⟨hsess, hr, hcs⟩ := hB.cache_val e hc
        refine BInv_release (BInv.mk ?_ ?_ ?_ ?_)
        · intro e' he'
          have he2 : e' = { e with lastUsed := now } := by
            injection he' with h'
            exact h'.symm
          subst he2
          exact ⟨hsess, hr, hcs⟩
        · intro h
          cases h
        · intro j v hj
          by_cases hji : j = i
          · subst hji
            simp only [Function.update_same] at hj
            injection hj with hv
            exact ⟨hv ▸ hsess, by simp⟩
          · simp only [Function.update_noteq hji] at hj
            exact ⟨(hB.fin_val j v hj).1, by simp⟩
        · intro j w hj
          by_cases hji : j = i
          · subst hji
            simp only [Function.update_same] at hj
            cases hj
          · simp only [Function.update_noteq hji] at hj
            exact absurd hc (by rw [hB.loading_none j w hj]; simp)
    | none =>
      dsimp only
      refine BInv.mk ?_ ?_ ?_ ?_
      · intro e' he'
        cases he'
      · intro _
        exact hB.cache_none hc
      · intro j v hj
        by_cases hji : j = i
        · subst hji
          simp only [Function.update_same] at hj
          cases hj
        · simp only [Function.update_noteq hji] at hj
          exact absurd hc (hB.fin_val j v hj).2
      · intro j w _
        rfl
  | loading now =>
    dsimp only
    have hcache : s.cache = none := hB.loading_none i now htask
    obtain ⟨hr, hcs⟩ := hB.cache_none hcache
    refine BInv_release (BInv.mk ?_ ?_ ?_ ?_)
    · intro e' he'
      have he2 : e' = ⟨s.constructs, now, now⟩ := by
        injection he' with h'
        exact h'.symm
      subst he2
      exact ⟨hcs, by simp [hr], by simp [hcs]⟩
    · intro h
      cases h
    · intro j v hj
      by_cases hji : j = i
      · subst hji
        simp only [Function.update_same] at hj
        injection hj with hv
        exact ⟨hv ▸ hcs, by simp⟩
      · simp only [Function.update_noteq hji] at hj
        exact absurd hcache (hB.fin_val j v hj).2
    · intro j w hj
      by_cases hji : j = i
      · subst hji
        simp only [Function.update_same] at hj
        cases hj
      · simp only [Function.update_noteq hji] at hj
        have h1 := hL j w (Or.inr hj)
        have h2 := hL i now (Or.inr htask)
        rw [h2] at h1
        exact absurd (by injection h1; omega) hji

theorem BInv_mrun {n : Nat} (sched : List (Fin n × Nat)) {s : MState n}
    (hL : LInv s) (hB : BInv s) : BInv (mrun 0 sched s) := by
  induction sched generalizing s with
  | nil => exact hB
  | cons c rest ih =>
    exact ih (LInv_mstep 0 c hL) (BInv_stepTask c.1 (LInv_clock hL c.2) (BInv_clock hB c.2))

theorem BInv_minit (n : Nat) : BInv (minit n) := by
  refine BInv.mk ?_ ?_ ?_ ?_
  · intro e he
    cases he
  · intro _
    exact ⟨rfl, rfl⟩
  · intro j v hj
    cases hj
  · intro j w hj
    cases hj

theorem isFinished_iff {t : TaskSt} :
    t.isFinished = true ↔ ∃ v, t = .finished v := by
  cases t <;> simp [TaskSt.isFinished]

/-- C8: for every schedule of a concurrent burst of n `get_session` calls
on one key against an initially-empty cache (default TTL = 0), if all
tasks finish then exactly one GridFS read and one session construction
happened and every task returned the single constructed session; moreover
in every reachable state at most one task is loading (single-flight). -/
theorem c8_single_flight (n : Nat) (hn : 0 < n)
    (sched : List (Fin n × Nat)) :
    ((∀ i, ((mrun 0 sched (minit n)).tasks i).isFinished = true) →
      (mrun 0 sched (minit n)).reads = 1 ∧
      (mrun 0 sched (minit n)).constructs = 1 ∧
      (∀ i, (mrun 0 sched (minit n)).tasks i = .finished 0)) ∧
    (∀ i j wi wj, (mrun 0 sched (minit n)).tasks i = .loading wi →
      (mrun 0 sched (minit n)).tasks j = .loading wj → i = j) := by
  have hL : LInv (mrun 0 sched (minit n)) := LInv_mrun 0 sched (LInv_minit n)
  have hB : BInv (mrun 0 sched (minit n)) :=
    BInv_mrun sched (LInv_minit n) (BInv_minit n)
  constructor
  · intro hfin
    have hall : ∀ i, (mrun 0 sched (minit n)).tasks i = .finished 0 := by
      intro i
      obtain ⟨v, hv⟩ := isFinished_iff.mp (hfin i)
      rw [hv, (hB.fin_val i v hv).1]
    have h0 := hall ⟨0, hn⟩
    have hne := (hB.fin_val ⟨0, hn⟩ 0 h0).2
    cases hc : (mrun 0 sched (minit n)).cache with
    | none => exact absurd hc hne
    | some e =>
      obtain ⟨_, hr, hcs⟩ := hB.cache_val e hc
      exact ⟨hr, hcs, hall⟩
  · intro i j wi wj hi hj
    have h1 := hL i wi (Or.inr hi)
    have h2 := hL j wj (Or.inr hj)
    rw [h1] at h2
    injection h2

/-- Witness for C8: two tasks, a schedule where task 0 loads and task 1
hits; one read, one construction, both finish with session 0. -/
theorem c8_single_flight_witness :
    (∀ i : Fin 2,
      ((mrun 0 [((0 : Fin 2), 0), (0, 0), (0, 0), (1, 0)] (minit 2)).tasks
          i).isFinished = true) ∧
    (mrun 0 [((0 : Fin 2), 0), (0, 0), (0, 0), (1, 0)] (minit 2)).reads = 1 ∧
    (mrun 0 [((0 : Fin 2), 0), (0, 0), (0, 0), (1, 0)] (minit 2)).constructs
        = 1 ∧
    (∀ i, (mrun 0 [((0 : Fin 2), 0), (0, 0), (0, 0), (1, 0)] (minit 2)).tasks
        i = .finished 0) :=
  ⟨by decide,
    (c8_single_flight 2 (by decide) [((0 : Fin 2), 0), (0, 0), (0, 0), (1, 0)]).1
      (by decide)⟩

/-! ## Interleaving model: the timestamp invariant

The `now` a task captured never exceeds the clock; queue order follows
capture order (FIFO acquisition of a lock that is handed to the head
waiter); the cache entry's `loadedAt` never exceeds the lock holder's
captured `now`. Together these give `loadedAt ≤ lastUsed` even for the
lookup that waited on the per-key mutex while another caller reloaded. -/

/-- The `now` captured by a task at the top of `get_session`, if it is
still executing. -/
def nowOf : TaskSt → Option Nat
  | .waiting w => some w
  | .woken w => some w
  | .loading w => some w
  | _ => none

/-- The timestamp invariant of the interleaving model. -/
structure TInv {n : Nat} (s : MState n) : Prop where
  entry_order : ∀ e, s.cache = some e →
    e.loadedAt ≤ e.lastUsed ∧ e.lastUsed ≤ s.clock
  now_clock : ∀ i w, nowOf (s.tasks i) = some w → w ≤ s.clock
  queue_waiting : ∀ j ∈ s.queue, ∃ w, s.tasks j = .waiting w
  queue_nodup : s.queue.Nodup
  queue_sorted : s.queue.Pairwise fun a b => ∀ wa wb,
    s.tasks a = .waiting wa → s.tasks b = .waiting wb → wa ≤ wb
  holder_none : s.holder = none → s.queue = []
  holder_active : ∀ h, s.holder = some h →
    ∃ w, s.tasks h = .woken w ∨ s.tasks h = .loading w
  holder_queue : ∀ h wh, s.holder = some h → nowOf (s.tasks h) = some wh →
    ∀ j ∈ s.queue, ∀ wj, s.tasks j = .waiting wj → wh ≤ wj
  cache_holder : ∀ e h wh, s.cache = some e → s.holder = some h →
    nowOf (s.tasks h) = some wh → e.loadedAt ≤ wh

theorem TInv_clock {n : Nat} {s : MState n} (hT : TInv s) (d : Nat) :
    TInv { s with clock := s.clock + d } := by
  refine TInv.mk ?_ ?_ hT.queue_waiting hT.queue_nodup hT.queue_sorted
    hT.holder_none hT.holder_active hT.holder_queue hT.cache_holder
  · intro e he
    obtain ⟨h1, h2⟩ := hT.entry_order e he
    refine ⟨h1, ?_⟩
    show e.lastUsed ≤ s.clock + d
    omega
  · intro i w hw
    have hwc := hT.now_clock i w hw
    show w ≤ s.clock + d
    omega

theorem TInv_minit (n : Nat) : TInv (minit n) := by
  refine TInv.mk ?_ ?_ ?_ ?_ ?_ ?_ ?_ ?_ ?_
  · intro e he
    cases he
  · intro i w hw
    cases hw
  · intro j hj
    cases hj
  · exact List.nodup_nil
  · exact List.Pairwise.nil
  · intro _
    rfl
  · intro h hh
    cases hh
  · intro h wh hh
    cases hh
  · intro e h wh he
    cases he

theorem pairwise_update {n : Nat} {q : List (Fin n)} {f : Fin n → TaskSt}
    {i : Fin n} (x : TaskSt) (hi : i ∉ q)
    (hp : q.Pairwise fun a b => ∀ wa wb, f a = .waiting wa →
      f b = .waiting wb → wa ≤ wb) :
    q.Pairwise fun a b => ∀ wa wb, Function.update f i x a = .waiting wa →
      Function.update f i x b = .waiting wb → wa ≤ wb := by
  refine hp.imp_of_mem ?_
  intro a b ha hb hrel wa wb hwa hwb
  rw [Function.update_noteq (fun h => hi (by rw [← h]; exact ha))] at hwa
  rw [Function.update_noteq (fun h => hi (by rw [← h]; exact hb))] at hwb
  exact hrel wa wb hwa hwb

theorem queue_waiting_update {n : Nat} {q : List (Fin n)} {f : Fin n → TaskSt}
    {i : Fin n} (x : TaskSt) (hi : i ∉ q)
    (h : ∀ j ∈ q, ∃ w, f j = .waiting w) :
    ∀ j ∈ q, ∃ w, Function.update f i x j = .waiting w := by
  intro j hj
  rw [Function.update_noteq (fun hji => hi (by rw [← hji]; exact hj))]
  exact h j hj

theorem TInv_popCache {n : Nat} {s : MState n} (hT : TInv s) :
    TInv { s with cache := none } := by
  refine TInv.mk ?_ hT.now_clock hT.queue_waiting hT.queue_nodup
    hT.queue_sorted hT.holder_none hT.holder_active hT.holder_queue ?_
  · intro e he
    cases he
  · intro e h wh he
    cases he

theorem TInv_tryLock {n : Nat} {s : MState n} {i : Fin n}
    (hc : s.cache = none) (hready : s.tasks i = .ready) (hT : TInv s) :
    TInv (tryLock s i s.clock) := by
  have hinotq : i ∉ s.queue := fun hmem => by
    obtain ⟨w', hw'⟩ := hT.queue_waiting i hmem
    rw [hready] at hw'
    cases hw'
  unfold tryLock
  cases hh : s.holder with
  | none =>
    have hqnil : s.queue = [] := hT.holder_none hh
    dsimp only
    refine TInv.mk ?_ ?_ ?_ ?_ ?_ ?_ ?_ ?_ ?_
    · intro e he
      rw [hc] at he
      cases he
    · intro j w hw
      by_cases hji : j = i
      · subst hji
        simp only [Function.update_same, nowOf] at hw
        injection hw with hw
        show w ≤ s.clock
        omega
      · simp only [Function.update_noteq hji] at hw
        exact hT.now_clock j w hw
    · intro j hj
      rw [hqnil] at hj
      cases hj
    · exact hT.queue_nodup
    · exact hqnil ▸ List.Pairwise.nil
    · intro hcon
      cases hcon
    · intro h hh'
      have hhi : h = i := by
        injection hh' with hh'
        exact hh'.symm
      subst hhi
      refine ⟨s.clock, Or.inl ?_⟩
      dsimp only
      rw [Function.update_same]
    · intro h wh _ _ j hj
      rw [hqnil] at hj
      cases hj
    · intro e h wh he
      rw [hc] at he
      cases he
  | some h0 =>
    have hh0i : h0 ≠ i := by
      obtain ⟨w0, hw0⟩ := hT.holder_active h0 hh
      intro hcon
      subst hcon
      rw [hready] at hw0
      rcases hw0 with hw0 | hw0 <;> cases hw0
    dsimp only
    refine TInv.mk ?_ ?_ ?_ ?_ ?_ ?_ ?_ ?_ ?_
    · intro e he
      rw [hc] at he
      cases he
    · intro j w hw
      by_cases hji : j = i
      · subst hji
        simp only [Function.update_same, nowOf] at hw
        injection hw with hw
        show w ≤ s.clock
        omega
      · simp only [Function.update_noteq hji] at hw
        exact hT.now_clock j w hw
    · intro j hj
      rcases List.mem_append.mp hj with hj | hj
      · obtain ⟨w', hw'⟩ := hT.queue_waiting j hj
        refine ⟨w', ?_⟩
        dsimp only
        rw [Function.update_noteq (fun hji => hinotq (by rw [← hji]; exact hj))]
        exact hw'
      · have hji : j = i := by simpa using hj
        subst hji
        exact ⟨s.clock, Function.update_same _ _ _⟩
    · rw [List.nodup_append]
      refine ⟨hT.queue_nodup, List.nodup_singleton i, ?_⟩
      intro a ha hb
      have hai : a = i := by simpa using hb
      subst hai
      exact hinotq ha
    · rw [List.pairwise_append]
      refine ⟨pairwise_update _ hinotq hT.queue_sorted,
        List.pairwise_singleton _ i, ?_⟩
      intro a ha b hb wa wb hwa hwb
      have hbi : b = i := by simpa using hb
      subst hbi
      have hab : a ≠ b := fun h => hinotq (by rw [← h]; exact ha)
      simp only [Function.update_same] at hwb
      simp only [Function.update_noteq hab] at hwa
      injection hwb with hwb
      have hwac := hT.now_clock a wa (by rw [hwa]; rfl)
      omega
    · intro hcon
      cases hcon
    · intro h hh'
      have hhh0 : h = h0 := by
        injection hh' with hh'
        exact hh'.symm
      subst hhh0
      obtain ⟨w0, hw0⟩ := hT.holder_active h hh
      refine ⟨w0, ?_⟩
      dsimp only
      rw [Function.update_noteq hh0i]
      exact hw0
    · intro h wh hh' hnowh j hj wj hwj
      have hhh0 : h = h0 := by
        injection hh' with hh'
        exact hh'.symm
      subst hhh0
      simp only [Function.update_noteq hh0i] at hnowh
      rcases List.mem_append.mp hj with hj | hj
      · have hjine : j ≠ i := fun hji => hinotq (by rw [← hji]; exact hj)
        simp only [Function.update_noteq hjine] at hwj
        exact hT.holder_queue h wh hh hnowh j hj wj hwj
      · have hji : j = i := by simpa using hj
        subst hji
        simp only [Function.update_same] at hwj
        injection hwj with hwj
        have hwhc := hT.now_clock h wh hnowh
        omega
    · intro e h wh he
      rw [hc] at he
      cases he

theorem TInv_release {n : Nat} {s : MState n}
    (hE : ∀ e, s.cache = some e → e.loadedAt ≤ e.lastUsed ∧ e.lastUsed ≤ s.clock)
    (hNC : ∀ i w, nowOf (s.tasks i) = some w → w ≤ s.clock)
    (hQW : ∀ j ∈ s.queue, ∃ w, s.tasks j = .waiting w)
    (hND : s.queue.Nodup)
    (hQS : s.queue.Pairwise fun a b => ∀ wa wb, s.tasks a = .waiting wa →
      s.tasks b = .waiting wb → wa ≤ wb)
    (hCQ : ∀ e, s.cache = some e → ∀ j ∈ s.queue, ∀ wj,
      s.tasks j = .waiting wj → e.loadedAt ≤ wj) :
    TInv (release s) := by
  unfold release
  cases hq : s.queue with
  | nil =>
    dsimp only
    refine TInv.mk hE hNC ?_ List.nodup_nil List.Pairwise.nil ?_ ?_ ?_ ?_
    · intro j hj
      cases hj
    · intro _
      rfl
    · intro h hh
      cases hh
    · intro h wh hh
      cases hh
    · intro e h wh _ hh
      cases hh
  | cons q0 rest =>
    obtain ⟨w0, hw0⟩ := hQW q0 (by rw [hq]; exact List.mem_cons_self q0 rest)
    have hndq : (q0 :: rest).Nodup := hq ▸ hND
    have hq0rest : q0 ∉ rest := (List.nodup_cons.mp hndq).1
    have hsorted : (q0 :: rest).Pairwise fun a b => ∀ wa wb,
        s.tasks a = .waiting wa → s.tasks b = .waiting wb → wa ≤ wb :=
      hq ▸ hQS
    have hQWrest : ∀ j ∈ rest, ∃ w, s.tasks j = .waiting w := fun j hj =>
      hQW j (by rw [hq]; exact List.mem_cons_of_mem q0 hj)
    have hupd : Function.update s.tasks q0
        (match s.tasks q0 with | .waiting w => .woken w | t => t) =
        Function.update s.tasks q0 (.woken w0) := by
      rw [hw0]
    dsimp only
    rw [hupd]
    refine TInv.mk hE ?_ ?_ ?_ ?_ ?_ ?_ ?_ ?_
    · intro j w hw
      by_cases hjq : j = q0
      · subst hjq
        simp only [Function.update_same, nowOf] at hw
        injection hw with hw
        show w ≤ s.clock
        have hw0c := hNC j w0 (by rw [hw0]; rfl)
        omega
      · simp only [Function.update_noteq hjq] at hw
        exact hNC j w hw
    · intro j hj
      have hjq : j ≠ q0 := fun h => hq0rest (h ▸ hj)
      obtain ⟨w', hw'⟩ := hQWrest j hj
      refine ⟨w', ?_⟩
      dsimp only
      rw [Function.update_noteq hjq]
      exact hw'
    · exact (List.nodup_cons.mp hndq).2
    · exact pairwise_update _ hq0rest hsorted.of_cons
    · intro hcon
      cases hcon
    · intro h hh
      have hhq : h = q0 := by
        injection hh with hh
        exact hh.symm
      subst hhq
      refine ⟨w0, Or.inl ?_⟩
      dsimp only
      rw [Function.update_same]
    · intro h wh hh hnowh j hj wj hwj
      have hhq : h = q0 := by
        injection hh with hh
        exact hh.symm
      subst hhq
      simp only [Function.update_same, nowOf] at hnowh
      injection hnowh with hnowh
      have hjq : j ≠ h := fun hcon => hq0rest (by rw [← hcon]; exact hj)
      simp only [Function.update_noteq hjq] at hwj
      have hrel := List.rel_of_pairwise_cons hsorted hj
      have hle := hrel w0 wj hw0 hwj
      omega
    · intro e h wh he hh hnowh
      have hhq : h = q0 := by
        injection hh with hh
        exact hh.symm
      subst hhq
      simp only [Function.update_same, nowOf] at hnowh
      injection hnowh with hnowh
      have hle := hCQ e he h (by rw [hq]; exact List.mem_cons_self h rest) w0 hw0
      omega

theorem TInv_stepTask {n : Nat} (ttl : Nat) (i : Fin n) {s : MState n}
    (hL : LInv s) (hT : TInv s) : TInv (stepTask ttl i s) := by
  unfold stepTask
  cases htask : s.tasks i with
  | waiting w => exact hT
  | finished v => exact hT
  | ready =>
    have hinotq : i ∉ s.queue := fun hmem => by
      obtain ⟨w', hw'⟩ := hT.queue_waiting i hmem
      rw [htask] at hw'
      cases hw'
    dsimp only
    cases hc : s.cache with
    | none => exact TInv_tryLock hc htask hT
    | some e =>
      dsimp only
      split
      · exact TInv_tryLock (s := { s with cache := none }) rfl htask
          (TInv_popCache hT)
      · obtain ⟨hord, hlastc⟩ := hT.entry_order e hc
        refine TInv.mk ?_ ?_
          (queue_waiting_update _ hinotq hT.queue_waiting) hT.queue_nodup
          (pairwise_update _ hinotq hT.queue_sorted) hT.holder_none ?_ ?_ ?_
        · intro e' he'
          have he2 : e' = { e with lastUsed := s.clock } := by
            injection he' with h'
            exact h'.symm
          subst he2
          exact ⟨by dsimp only; omega, le_refl _⟩
        · intro j w hw
          by_cases hji : j = i
          · subst hji
            simp only [Function.update_same, nowOf] at hw
            cases hw
          · simp only [Function.update_noteq hji] at hw
            exact hT.now_clock j w hw
        · intro h hh
          obtain ⟨w', hw'⟩ := hT.holder_active h hh
          have hhi : h ≠ i := by
            intro hcon
            subst hcon
            rw [htask] at hw'
            rcases hw' with hw' | hw' <;> cases hw'
          refine ⟨w', ?_⟩
          dsimp only
          rw [Function.update_noteq hhi]
          exact hw'
        · intro h wh hh hnowh j hj wj hwj
          obtain ⟨w', hw'⟩ := hT.holder_active h hh
          have hhi : h ≠ i := by
            intro hcon
            subst hcon
            rw [htask] at hw'
            rcases hw' with hw' | hw' <;> cases hw'
          have hjine : j ≠ i := fun hji => hinotq (by rw [← hji]; exact hj)
          simp only [Function.update_noteq hhi] at hnowh
          simp only [Function.update_noteq hjine] at hwj
          exact hT.holder_queue h wh hh hnowh j hj wj hwj
        · intro e' h wh he' hh hnowh
          obtain ⟨w', hw'⟩ := hT.holder_active h hh
          have hhi : h ≠ i := by
            intro hcon
            subst hcon
            rw [htask] at hw'
            rcases hw' with hw' | hw' <;> cases hw'
          simp only [Function.update_noteq hhi] at hnowh
          have he2 : e' = { e with lastUsed := s.clock } := by
            injection he' with h'
            exact h'.symm
          subst he2
          have hch := hT.cache_holder e h wh hc hh hnowh
          dsimp only
          omega
  | woken wi =>
    have hhold : s.holder = some i := hL i wi (Or.inl htask)
    have hinotq : i ∉ s.queue := fun hmem => by
      obtain ⟨w', hw'⟩ := hT.queue_waiting i hmem
      rw [htask] at hw'
      cases hw'
    have hwic : wi ≤ s.clock := hT.now_clock i wi (by rw [htask]; rfl)
    dsimp only
    cases hc : s.cache with
    | some e =>
      dsimp only
      split
      · -- expired: purge the entry and proceed to load, still holding
        refine TInv.mk ?_ ?_
          (queue_waiting_update _ hinotq hT.queue_waiting) hT.queue_nodup
          (pairwise_update _ hinotq hT.queue_sorted) ?_ ?_ ?_ ?_
        · intro e' he'
          cases he'
        · intro j w hw
          by_cases hji : j = i
          · subst hji
            simp only [Function.update_same, nowOf] at hw
            injection hw with hw
            show w ≤ s.clock
            omega
          · simp only [Function.update_noteq hji] at hw
            exact hT.now_clock j w hw
        · intro hcon
          rw [hhold] at hcon
          cases hcon
        · intro h hh
          have hhi : h = i := by
            rw [hhold] at hh
            injection hh with hh
            exact hh.symm
          subst hhi
          refine ⟨wi, Or.inr ?_⟩
          dsimp only
          rw [Function.update_same]
        · intro h wh hh hnowh j hj wj hwj
          have hhi : h = i := by
            rw [hhold] at hh
            injection hh with hh
            exact hh.symm
          subst hhi
          simp only [Function.update_same, nowOf] at hnowh
          injection hnowh with hnowh
          have hjine : j ≠ h := fun hji => hinotq (by rw [← hji]; exact hj)
          simp only [Function.update_noteq hjine] at hwj
          have hle := hT.holder_queue h wi hhold (by rw [htask]; rfl) j hj wj hwj
          omega
        · intro e' h wh he'
          cases he'
      · -- fresh hit after waiting: touch with the captured now and release
        have hch : e.loadedAt ≤ wi :=
          hT.cache_holder e i wi hc hhold (by rw [htask]; rfl)
        refine TInv_release ?_ ?_
          (queue_waiting_update _ hinotq hT.queue_waiting) hT.queue_nodup
          (pairwise_update _ hinotq hT.queue_sorted) ?_
        · intro e' he'
          have he2 : e' = { e with lastUsed := wi } := by
            injection he' with h'
            exact h'.symm
          subst he2
          exact ⟨hch, hwic⟩
        · intro j w hw
          by_cases hji : j = i
          · subst hji
            simp only [Function.update_same, nowOf] at hw
            cases hw
          · simp only [Function.update_noteq hji] at hw
            exact hT.now_clock j w hw
        · intro e' he' j hj wj hwj
          have he2 : e' = { e with lastUsed := wi } := by
            injection he' with h'
            exact h'.symm
          subst he2
          have hjine : j ≠ i := fun hji => hinotq (by rw [← hji]; exact hj)
          simp only [Function.update_noteq hjine] at hwj
          have hle := hT.holder_queue i wi hhold (by rw [htask]; rfl) j hj wj hwj
          dsimp only
          omega
    | none =>
      dsimp only
      refine TInv.mk ?_ ?_
        (queue_waiting_update _ hinotq hT.queue_waiting) hT.queue_nodup
        (pairwise_update _ hinotq hT.queue_sorted) ?_ ?_ ?_ ?_
      · intro e' he'
        exact absurd he' (by simp)
      · intro j w hw
        by_cases hji : j = i
        · subst hji
          simp only [Function.update_same, nowOf] at hw
          injection hw with hw
          show w ≤ s.clock
          omega
        · simp only [Function.update_noteq hji] at hw
          exact hT.now_clock j w hw
      · intro hcon
        rw [hhold] at hcon
        cases hcon
      · intro h hh
        have hhi : h = i := by
          rw [hhold] at hh
          injection hh with hh
          exact hh.symm
        subst hhi
        refine ⟨wi, Or.inr ?_⟩
        dsimp only
        rw [Function.update_same]
      · intro h wh hh hnowh j hj wj hwj
        have hhi : h = i := by
          rw [hhold] at hh
          injection hh with hh
          exact hh.symm
        subst hhi
        simp only [Function.update_same, nowOf] at hnowh
        injection hnowh with hnowh
        have hjine : j ≠ h := fun hji => hinotq (by rw [← hji]; exact hj)
        simp only [Function.update_noteq hjine] at hwj
        have hle := hT.holder_queue h wi hhold (by rw [htask]; rfl) j hj wj hwj
        omega
      · intro e' h wh he'
        exact absurd he' (by simp)
  | loading wi =>
    have hhold : s.holder = some i := hL i wi (Or.inr htask)
    have hinotq : i ∉ s.queue := fun hmem => by
      obtain ⟨w', hw'⟩ := hT.queue_waiting i hmem
      rw [htask] at hw'
      cases hw'
    have hwic : wi ≤ s.clock := hT.now_clock i wi (by rw [htask]; rfl)
    dsimp only
    refine TInv_release ?_ ?_
      (queue_waiting_update _ hinotq hT.queue_waiting) hT.queue_nodup
      (pairwise_update _ hinotq hT.queue_sorted) ?_
    · intro e' he'
      have he2 : e' = ⟨s.constructs, wi, wi⟩ := by
        injection he' with h'
        exact h'.symm
      subst he2
      exact ⟨le_refl _, hwic⟩
    · intro j w hw
      by_cases hji : j = i
      · subst hji
        simp only [Function.update_same, nowOf] at hw
        cases hw
      · simp only [Function.update_noteq hji] at hw
        exact hT.now_clock j w hw
    · intro e' he' j hj wj hwj
      have he2 : e' = ⟨s.constructs, wi, wi⟩ := by
        injection he' with h'
        exact h'.symm
      subst he2
      have hjine : j ≠ i := fun hji => hinotq (by rw [← hji]; exact hj)
      simp only [Function.update_noteq hjine] at hwj
      have hle := hT.holder_queue i wi hhold (by rw [htask]; rfl) j hj wj hwj
      dsimp only
      omega

theorem TInv_mrun {n : Nat} (ttl : Nat) (sched : List (Fin n × Nat))
    {s : MState n} (hL : LInv s) (hT : TInv s) : TInv (mrun ttl sched s) := by
  induction sched generalizing s with
  | nil => exact hT
  | cons c rest ih =>
    exact ih (LInv_mstep ttl c hL)
      (TInv_stepTask ttl c.1 (LInv_clock hL c.2) (TInv_clock hT c.2))

/-! ## The loadedAt ≤ lastUsed ordering (sequential operations) -/

/-- Every entry was used no earlier than it was loaded. -/
def seqOrderInv (c : SeqCache) : Prop :=
  ∀ p ∈ c, p.2.loadedAt ≤ p.2.lastUsed

theorem mem_setC {c : SeqCache} {k : Nat} {e : CEntry} :
    ∀ p ∈ setC c k e, p = (k, e) ∨ p ∈ c := by
  induction c with
  | nil =>
    intro p hp
    simp only [setC, List.mem_singleton] at hp
    exact Or.inl hp
  | cons q rest ih =>
    intro p hp
    obtain ⟨k', e'⟩ := q
    simp only [setC] at hp
    split at hp
    · rcases List.mem_cons.mp hp with hp | hp
      · exact Or.inl hp
      · exact Or.inr (List.mem_cons_of_mem _ hp)
    · rcases List.mem_cons.mp hp with hp | hp
      · exact Or.inr (by simp [hp])
      · rcases ih p hp with hp | hp
        · exact Or.inl hp
        · exact Or.inr (List.mem_cons_of_mem _ hp)

theorem seqOrderInv_setC {c : SeqCache} {k : Nat} {e : CEntry}
    (h : seqOrderInv c) (he : e.loadedAt ≤ e.lastUsed) :
    seqOrderInv (setC c k e) := by
  intro p hp
  rcases mem_setC p hp with hp | hp
  · rw [hp]
    exact he
  · exact h p hp

theorem seqOrderInv_removeC {c : SeqCache} (k : Nat) (h : seqOrderInv c) :
    seqOrderInv (removeC c k) :=
  fun p hp => h p (List.mem_filter.mp hp).1

theorem seqOrderInv_evictGo (maxE : Int) :
    ∀ (fuel : Nat) (c : SeqCache), seqOrderInv c →
      seqOrderInv (evictGo maxE fuel c)
  | 0, c, h => h
  | fuel + 1, c, h => by
    unfold evictGo
    split
    · cases hf : findLRU c with
      | none => exact h
      | some k => exact seqOrderInv_evictGo maxE fuel _ (seqOrderInv_removeC k h)
    · exact h

theorem seqOrderInv_evictIfNeeded (maxE : Int) (c : SeqCache)
    (h : seqOrderInv c) : seqOrderInv (evictIfNeeded maxE c) := by
  unfold evictIfNeeded
  split
  · exact h
  · exact seqOrderInv_evictGo maxE c.length c h

theorem lookupC_mem {c : SeqCache} {k : Nat} {e : CEntry}
    (h : lookupC c k = some e) : (k, e) ∈ c := by
  unfold lookupC at h
  cases hf : c.find? (fun p => p.1 = k) with
  | none =>
    rw [hf] at h
    cases h
  | some p =>
    rw [hf] at h
    have hp := List.mem_of_find?_eq_some hf
    have hpk := List.find?_some hf
    simp only [decide_eq_true_eq] at hpk
    simp only [Option.map_some'] at h
    injection h with h
    have : (k, e) = p := by
      rw [← hpk, ← h]
    rw [this]
    exact hp

theorem loadedAt_le_getIfFresh (ttl now : Nat) (c : SeqCache) (k : Nat)
    (hnow : ∀ p ∈ c, p.2.loadedAt ≤ now) :
    ∀ p ∈ (getIfFresh ttl now c k).2, p.2.loadedAt ≤ now := by
  unfold getIfFresh
  cases hl : lookupC c k with
  | none => exact hnow
  | some e =>
    dsimp only
    split
    · exact fun p hp => hnow p (List.mem_filter.mp hp).1
    · intro p hp
      rcases mem_setC p hp with hp | hp
      · rw [hp]
        exact hnow (k, e) (lookupC_mem hl)
      · exact hnow p hp

theorem seqOrderInv_getIfFresh (ttl now : Nat) (c : SeqCache) (k : Nat)
    (h : seqOrderInv c) (hnow : ∀ p ∈ c, p.2.loadedAt ≤ now) :
    seqOrderInv (getIfFresh ttl now c k).2 := by
  unfold getIfFresh
  cases hl : lookupC c k with
  | none => exact h
  | some e =>
    dsimp only
    split
    · exact seqOrderInv_removeC k h
    · exact seqOrderInv_setC h (hnow (k, e) (lookupC_mem hl))

theorem seqOrderInv_getSession (maxE : Int) (ttl now : Nat) (st : CacheState)
    (k : Nat) (h : seqOrderInv st.cache)
    (hnow : ∀ p ∈ st.cache, p.2.loadedAt ≤ now) :
    seqOrderInv (getSession maxE ttl now st k).2.cache := by
  have h1 := seqOrderInv_getIfFresh ttl now st.cache k h hnow
  have h1' := loadedAt_le_getIfFresh ttl now st.cache k hnow
  unfold getSession
  rcases hg1 : getIfFresh ttl now st.cache k with ⟨o1, c1⟩
  rw [hg1] at h1 h1'
  dsimp only at h1 h1'
  cases o1 with
  | some s1 =>
    dsimp only
    exact h1
  | none =>
    dsimp only
    have h2 := seqOrderInv_getIfFresh ttl now c1 k h1 h1'
    rcases hg2 : getIfFresh ttl now c1 k with ⟨o2, c2⟩
    rw [hg2] at h2
    dsimp only at h2
    cases o2 with
    | some s2 =>
      dsimp only
      exact h2
    | none =>
      dsimp only
      refine seqOrderInv_evictIfNeeded maxE _ (seqOrderInv_setC h2 ?_)
      exact le_refl now

/-- C9: every cache entry satisfies loadedAt ≤ lastUsed: in every state of
the interleaving model reachable by any schedule and TTL — which covers
lookups that waited on the per-key mutex while another caller reloaded —
and preserved by every sequential operation (get_session at a time past
all loadedAt stamps, eviction, invalidate, clear). -/
theorem c9_loaded_le_used :
    (∀ (ttl n : Nat) (sched : List (Fin n × Nat)) (e : CEntry),
      (mrun ttl sched (minit n)).cache = some e → e.loadedAt ≤ e.lastUsed) ∧
    (∀ (maxE : Int) (ttl now : Nat) (st : CacheState) (k : Nat),
      seqOrderInv st.cache → (∀ p ∈ st.cache, p.2.loadedAt ≤ now) →
      seqOrderInv (getSession maxE ttl now st k).2.cache) ∧
    (∀ (maxE : Int) (c : SeqCache), seqOrderInv c →
      seqOrderInv (evictIfNeeded maxE c)) ∧
    (∀ (c : SeqCache) (k : Nat), seqOrderInv c →
      seqOrderInv (invalidateC c k)) ∧
    seqOrderInv clearC := by
  refine ⟨fun ttl n sched e he => ?_,
    fun maxE ttl now st k h hnow => seqOrderInv_getSession maxE ttl now st k h hnow,
    fun maxE c h => seqOrderInv_evictIfNeeded maxE c h,
    fun c k h => seqOrderInv_removeC k h,
    fun p hp => absurd hp (by simp [clearC])⟩
  have hT := TInv_mrun ttl sched (LInv_minit n) (TInv_minit n)
  exact (hT.entry_order e he).1

/-- Witness for C9: a schedule where task 1 waits on the lock while task 0
reloads an expired entry: the touched entry still satisfies the ordering. -/
theorem c9_loaded_le_used_witness :
    (mrun 2 [((0 : Fin 2), 3), (0, 0), (1, 0), (0, 0), (0, 0), (1, 0)]
        (minit 2)).cache = some ⟨0, 3, 3⟩ ∧
    (3 : Nat) ≤ 3 ∧
    seqOrderInv (getSession 64 0 5 ⟨[(7, ⟨0, 1, 2⟩)], 1⟩ 7).2.cache :=
  ⟨by decide,
    c9_loaded_le_used.1 2 2 [((0 : Fin 2), 3), (0, 0), (1, 0), (0, 0), (0, 0), (1, 0)]
      ⟨0, 3, 3⟩ (by decide),
    c9_loaded_le_used.2.1 64 0 5 ⟨[(7, ⟨0, 1, 2⟩)], 1⟩ 7
      (by
        intro p hp
        have hp2 : p = (7, (⟨0, 1, 2⟩ : CEntry)) := by simpa using hp
        subst hp2
        decide)
      (by
        intro p hp
        have hp2 : p = (7, (⟨0, 1, 2⟩ : CEntry)) := by simpa using hp
        subst hp2
        decide)⟩

end Nexon
